import Mathlib

/-!
Verification of the `clean_data.py` gate-code dataset cleaner.

The Python source is embedded shallowly: Python strings become `List Char`
(`Str`), JSON-decoded Python values become the inductive `PyVal`, Python dicts
become insertion-ordered association lists, and every function of the source
file is translated to a computable Lean function of the same name.  Unicode
behaviour (`unicodedata.normalize("NFKD", ·)`, `str.lower`, `str.split`, the
`re` digit class) is modelled on the fragment the data actually inhabits:
ASCII plus the Latin-1 accented letters listed in `nfkdTable`; combining marks
are modelled as the U+0300–U+036F block.
-/

set_option maxHeartbeats 1000000

/-- Python strings are modelled as lists of characters. -/
abbrev Str := List Char

/-- Whitespace recognised by Python's `str.split()` (ASCII fragment:
space, tab, newline, carriage return, vertical tab, form feed). -/
def pyIsSpace (c : Char) : Bool :=
  c == ' ' || c == '\t' || c == '\n' || c == '\r' ||
  c == Char.ofNat 11 || c == Char.ofNat 12

/-- ASCII decimal digit, the runs matched by the source's `DIGIT_RE = \d+`. -/
def isDigitChar (c : Char) : Bool := 48 ≤ c.toNat && c.toNat ≤ 57

/-- ASCII lowercase letter. -/
def isLowerChar (c : Char) : Bool := 97 ≤ c.toNat && c.toNat ≤ 122

/-- ASCII uppercase letter, the class tested by `"A" <= c <= "Z"`. -/
def isUpperChar (c : Char) : Bool := 65 ≤ c.toNat && c.toNat ≤ 90

/-- Character class `[a-z0-9]`, the complement of `NON_ALNUM_TO_SPACE_RE`. -/
def isLowerAlnum (c : Char) : Bool := isLowerChar c || isDigitChar c

/-- Per-character `str.lower()` (ASCII fragment). -/
def pyLowerChar (c : Char) : Char :=
  if isUpperChar c then Char.ofNat (c.toNat + 32) else c

/-- Per-character `str.upper()` (ASCII fragment). -/
def pyUpperChar (c : Char) : Char :=
  if isLowerChar c then Char.ofNat (c.toNat - 32) else c

/-- `str.lower()` (ASCII fragment). -/
def pyLower (s : Str) : Str := s.map pyLowerChar

/-- `str.upper()` (ASCII fragment). -/
def pyUpper (s : Str) : Str := s.map pyUpperChar

/-- Accumulator-style worker for `maxRuns`: `acc` holds the reversed current
run of characters satisfying `p`. -/
def maxRunsAux (p : Char → Bool) : Str → Str → List Str
  | acc, [] => if acc.isEmpty then [] else [acc.reverse]
  | acc, c :: cs =>
    if p c then maxRunsAux p (c :: acc) cs
    else if acc.isEmpty then maxRunsAux p [] cs
    else acc.reverse :: maxRunsAux p [] cs

/-- The maximal runs of characters satisfying `p`, left to right.  This is
`re.findall` for the one-class-repeated patterns of the source (`\d+`) and
also the token splitter behind `str.split()`. -/
def maxRuns (p : Char → Bool) (s : Str) : List Str := maxRunsAux p [] s

/-- `sep.join(ts)` for a one-character separator. -/
def joinSep (sep : Char) : List Str → Str
  | [] => []
  | [t] => t
  | t :: t' :: ts => t ++ sep :: joinSep sep (t' :: ts)

/-- `str.strip()` (whitespace from both ends). -/
def pyStrip (s : Str) : Str :=
  ((s.dropWhile pyIsSpace).reverse.dropWhile pyIsSpace).reverse

/-- The class of non-whitespace characters: `str.split()` returns the
maximal runs of these. -/
def notSpace (c : Char) : Bool := !pyIsSpace c

/-- `clean_spaces` from the source: `" ".join((s or "").split()).strip()`. -/
def clean_spaces (s : Str) : Str :=
  pyStrip (joinSep ' ' (maxRuns notSpace s))

/-- NFKD decompositions for the modelled fragment of Unicode: each Latin-1
accented letter decomposes into its base letter followed by a combining mark;
characters not in the table (in particular all of ASCII) are their own
decomposition. -/
def nfkdTable : List (Char × Str) :=
  [ ('á', ['a', Char.ofNat 769]), ('à', ['a', Char.ofNat 768]),
    ('â', ['a', Char.ofNat 770]), ('ä', ['a', Char.ofNat 776]),
    ('ã', ['a', Char.ofNat 771]),
    ('é', ['e', Char.ofNat 769]), ('è', ['e', Char.ofNat 768]),
    ('ê', ['e', Char.ofNat 770]), ('ë', ['e', Char.ofNat 776]),
    ('í', ['i', Char.ofNat 769]), ('ì', ['i', Char.ofNat 768]),
    ('î', ['i', Char.ofNat 770]), ('ï', ['i', Char.ofNat 776]),
    ('ó', ['o', Char.ofNat 769]), ('ò', ['o', Char.ofNat 768]),
    ('ô', ['o', Char.ofNat 770]), ('ö', ['o', Char.ofNat 776]),
    ('õ', ['o', Char.ofNat 771]),
    ('ú', ['u', Char.ofNat 769]), ('ù', ['u', Char.ofNat 768]),
    ('û', ['u', Char.ofNat 770]), ('ü', ['u', Char.ofNat 776]),
    ('ñ', ['n', Char.ofNat 771]), ('ç', ['c', Char.ofNat 807]),
    ('Á', ['A', Char.ofNat 769]), ('À', ['A', Char.ofNat 768]),
    ('É', ['E', Char.ofNat 769]), ('È', ['E', Char.ofNat 768]),
    ('Ñ', ['N', Char.ofNat 771]), ('Ç', ['C', Char.ofNat 807]) ]

/-- Per-character NFKD decomposition (modelled fragment). -/
def nfkdChar (c : Char) : Str :=
  match nfkdTable.lookup c with
  | some d => d
  | none => [c]

/-- Combining marks (`unicodedata.combining(ch) != 0`), modelled as the
U+0300–U+036F combining-diacritical-marks block (which contains every mark
produced by `nfkdTable`). -/
def isCombining (c : Char) : Bool := 768 ≤ c.toNat && c.toNat ≤ 879

/-- `strip_accents` from the source: NFKD-decompose, drop combining marks. -/
def strip_accents (s : Str) : Str :=
  ((s.map nfkdChar).flatten).filter (fun c => !isCombining c)

/-- Worker modelling `re.sub(class+, " ", s)`: a maximal run of characters
outside the kept class is replaced by a single space.  The flag records
whether we are inside such a run (in which case further characters of the run
are dropped). -/
def subRunsAux (keep : Char → Bool) : Bool → Str → Str
  | _, [] => []
  | inRun, c :: cs =>
    if keep c then c :: subRunsAux keep false cs
    else if inRun then subRunsAux keep true cs
    else ' ' :: subRunsAux keep true cs

/-- `re.sub("[^class]+", " ", s)`: replace each maximal run of characters
outside `keep` by one space. -/
def regexSubToSpace (keep : Char → Bool) (s : Str) : Str :=
  subRunsAux keep false s

/-- `norm_community` from the source. -/
def norm_community (name : Str) : Str :=
  clean_spaces (regexSubToSpace isLowerAlnum
    (pyLower (strip_accents (clean_spaces name))))

/-- Python `s.split(sep)` for a one-character separator: worker carrying the
reversed current piece. -/
def splitCharAux (sep : Char) : Str → Str → List Str
  | acc, [] => [acc.reverse]
  | acc, c :: cs =>
    if c == sep then acc.reverse :: splitCharAux sep [] cs
    else splitCharAux sep (c :: acc) cs

/-- Python `s.split(sep)` (always at least one piece, pieces may be empty). -/
def splitChar (sep : Char) (s : Str) : List Str := splitCharAux sep [] s

/-- The abbreviation table of `expand_abbrev_tokens`. -/
def abbrevTable : List (Str × Str) :=
  [ ("n".data, "north".data), ("s".data, "south".data),
    ("e".data, "east".data), ("w".data, "west".data),
    ("ne".data, "northeast".data), ("nw".data, "northwest".data),
    ("se".data, "southeast".data), ("sw".data, "southwest".data),
    ("rd".data, "road".data), ("st".data, "street".data),
    ("ave".data, "avenue".data), ("av".data, "avenue".data),
    ("blvd".data, "boulevard".data), ("dr".data, "drive".data),
    ("ln".data, "lane".data), ("pl".data, "place".data),
    ("ct".data, "court".data), ("cir".data, "circle".data),
    ("trl".data, "trail".data), ("pkwy".data, "parkway".data),
    ("hwy".data, "highway".data), ("mt".data, "mount".data),
    ("ste".data, "suite".data), ("apt".data, "apartment".data),
    ("apts".data, "apartments".data), ("unit".data, "unit".data),
    ("bldg".data, "building".data) ]

/-- `expand_abbrev_tokens` from the source:
`[m.get(t.lower(), t.lower()) for t in tokens]`. -/
def expand_abbrev_tokens (tokens : List Str) : List Str :=
  tokens.map (fun t =>
    match abbrevTable.lookup (pyLower t) with
    | some e => e
    | none => pyLower t)

/-- `norm_address` from the source. -/
def norm_address (addr : Str) : Str :=
  let base := pyLower (strip_accents (clean_spaces addr))
  let cleaned := clean_spaces (regexSubToSpace isLowerAlnum base)
  let toks := (splitChar ' ' cleaned).filter (fun t => ¬ t.isEmpty)
  joinSep ' ' (expand_abbrev_tokens toks)

/-- `extract_gate_tokens` from the source: `DIGIT_RE.findall(raw or "")`. -/
def extract_gate_tokens (raw : Str) : List Str := maxRuns isDigitChar raw

/-- Worker for `uniq_preserve`; `seen` models the Python `set` (only
membership is used, so a list suffices). -/
def uniqAux (seen : List Str) : List Str → List Str
  | [] => []
  | x :: xs =>
    if x ∈ seen then uniqAux seen xs else x :: uniqAux (x :: seen) xs

/-- `uniq_preserve` from the source: drop later duplicates, keep first
occurrences in order. -/
def uniq_preserve (items : List Str) : List Str := uniqAux [] items

/-- First element of `b :: xs` whose count is maximal: `cand` wins ties since
later elements replace it only on strictly larger count. -/
def pickMax (cnt : Str → Nat) : Str → List Str → Str
  | b, [] => b
  | b, x :: xs => if cnt b < cnt x then pickMax cnt x xs else pickMax cnt b xs

/-- `most_common` from the source: `Counter([v for v in values if v])` keeps
insertion order (first occurrence of each distinct value) and
`.most_common(1)` sorts by count with a stable sort, so the result is the
first-encountered value of maximal count among the non-empty ones, `""` if
there are none. -/
def most_common (values : List Str) : Str :=
  let vs := values.filter (fun v => ¬ v.isEmpty)
  match uniq_preserve vs with
  | [] => []
  | d :: ds => pickMax (fun v => vs.count v) d ds

/-- The `small` word set of `title_case_smart`. -/
def smallWords : List Str :=
  [ "a".data, "an".data, "and".data, "as".data, "at".data, "but".data,
    "by".data, "for".data, "from".data, "in".data, "into".data, "near".data,
    "nor".data, "of".data, "on".data, "or".data, "over".data, "the".data,
    "to".data, "up".data, "via".data, "with".data ]

/-- Python `w.isdigit()` (ASCII fragment): non-empty and all digits. -/
def pyIsDigitStr (w : Str) : Bool := !w.isEmpty && w.all isDigitChar

/-- `lower[:1].upper() + lower[1:]`. -/
def capFirst : Str → Str
  | [] => []
  | c :: cs => pyUpperChar c :: cs

/-- The per-token transformation of `title_case_smart` (`i` is the token's
index in the word list). -/
def titleTok (i : Nat) (w : Str) : Str :=
  if pyIsDigitStr w then w
  else if w.length ≤ 3 && w == pyUpper w && w.any isUpperChar then w
  else
    let lower := pyLower w
    if i ≠ 0 && lower ∈ smallWords then lower else capFirst lower

/-- `title_case_smart` from the source. -/
def title_case_smart (s : Str) : Str :=
  let words := (splitChar ' ' (clean_spaces s)).filter (fun w => ¬ w.isEmpty)
  joinSep ' ' (words.enum.map (fun p => titleTok p.1 p.2))

/-- Python `needle in hay` helper: prefix test. -/
def leadsWith : Str → Str → Bool
  | [], _ => true
  | _ :: _, [] => false
  | a :: as, b :: bs => a == b && leadsWith as bs

/-- Python substring containment `needle in hay`. -/
def hasSub (needle : Str) : Str → Bool
  | [] => leadsWith needle []
  | c :: t => leadsWith needle (c :: t) || hasSub needle t

/-- ASCII lowercase letter class `[a-z]`, complement of the `norm_type`
regex `[^a-z]+`. -/
def isLowerAlpha (c : Char) : Bool := isLowerChar c

/-- The normalized key `k` computed at the start of `norm_type`:
`clean_spaces(re.sub("[^a-z]+", " ", clean_spaces(t).lower()))`. -/
def type_key (t : Str) : Str :=
  clean_spaces (regexSubToSpace isLowerAlpha (pyLower (clean_spaces t)))

/-- First keyword rule of `norm_type`:
`k in {"apt","apts","apartment","apartments"} or "apartment" in k`. -/
def is_apt (k : Str) : Bool :=
  decide (k ∈ ["apt".data, "apts".data, "apartment".data, "apartments".data])
    || hasSub "apartment".data k

/-- Second keyword rule of `norm_type`. -/
def is_res (k : Str) : Bool :=
  decide (k ∈ ["residential".data, "residence".data, "home".data,
    "homes".data, "housing".data]) || hasSub "residential".data k

/-- Third keyword rule of `norm_type`. -/
def is_bus (k : Str) : Bool :=
  decide (k ∈ ["business".data, "businesses".data, "commercial".data])
    || hasSub "business".data k || hasSub "commercial".data k

/-- `norm_type` from the source. -/
def norm_type (t : Str) : Str :=
  let k := type_key t
  if k.isEmpty then "Unknown".data
  else if is_apt k then "Apartments".data
  else if is_res k then "Residential".data
  else if is_bus k then "Businesses".data
  else if hasSub "student".data k then "Residential".data
  else title_case_smart k

/-!  ## The JSON / Python value model and the merge engine  -/

/-- JSON-decoded Python values, as produced by `json.load` (object keys are
always strings). -/
inductive PyVal where
  | str (s : Str)
  | int (n : Int)
  | bool (b : Bool)
  | pynone
  | list (xs : List PyVal)
  | dict (kvs : List (Str × PyVal))

/-- A Python dict with string keys, in insertion order. -/
abbrev PyDict := List (Str × PyVal)

/-- Python truthiness of a JSON value (`bool(v)`). -/
def truthy : PyVal → Bool
  | .str s => !s.isEmpty
  | .int n => decide (n ≠ 0)
  | .bool b => b
  | .pynone => false
  | .list xs => !xs.isEmpty
  | .dict kvs => !kvs.isEmpty

/-- `isinstance(e, dict)`, returning the dict's items. -/
def asDict : PyVal → Option PyDict
  | .dict kvs => some kvs
  | _ => Option.none

/-- Decimal digits of `n`, most significant first; the first argument is
fuel (consumed once per digit, `n + 1` is always enough). -/
def natReprAux : Nat → Nat → Str → Str
  | 0, _, acc => acc
  | fuel + 1, n, acc =>
    let acc' := Char.ofNat (48 + n % 10) :: acc
    if n < 10 then acc' else natReprAux fuel (n / 10) acc'

/-- Decimal representation of a natural number. -/
def natRepr (n : Nat) : Str := natReprAux (n + 1) n []

/-- Python `str(i)` for an integer. -/
def intRepr : Int → Str
  | .ofNat n => natRepr n
  | .negSucc n => '-' :: natRepr (n + 1)

/-- Python `repr` of a string: quote selection (single quotes unless the
string has a single quote and no double quote) plus the common escapes
(printable-ASCII fragment). -/
def quoteRepr (s : Str) : Str :=
  let sq := Char.ofNat 39
  let dq := Char.ofNat 34
  let bs := Char.ofNat 92
  let q := if sq ∈ s ∧ ¬ dq ∈ s then dq else sq
  let esc : Char → Str := fun c =>
    if c == bs then [bs, bs]
    else if c == q then [bs, q]
    else if c == '\n' then [bs, 'n']
    else if c == '\r' then [bs, 'r']
    else if c == '\t' then [bs, 't']
    else [c]
  q :: (s.map esc).flatten ++ [q]

/-- Join rendered pieces with `", "`. -/
def joinComma : List Str → Str
  | [] => []
  | [t] => t
  | t :: t' :: ts => t ++ ',' :: ' ' :: joinComma (t' :: ts)

/-- Python `repr` of a JSON value, with `fuel` consumed once per nesting
level (`sizeOf v` always suffices, see `pyStr`). -/
def pyReprFuel : Nat → PyVal → Str
  | 0, _ => []
  | _ + 1, .str s => quoteRepr s
  | _ + 1, .int n => intRepr n
  | _ + 1, .bool b => if b then "True".data else "False".data
  | _ + 1, .pynone => "None".data
  | fuel + 1, .list xs =>
    '[' :: joinComma (xs.map (pyReprFuel fuel)) ++ [']']
  | fuel + 1, .dict kvs =>
    Char.ofNat 123 ::
      joinComma (kvs.map (fun p =>
        quoteRepr p.1 ++ ':' :: ' ' :: pyReprFuel fuel p.2)) ++
    [Char.ofNat 125]

/-- Nesting depth of a JSON value (used as always-sufficient fuel for
`pyReprFuel`). -/
def pyDepth : PyVal → Nat
  | .str _ => 1
  | .int _ => 1
  | .bool _ => 1
  | .pynone => 1
  | .list xs => 1 + ((xs.attach.map (fun x => pyDepth x.1)).foldl max 0)
  | .dict kvs => 1 + ((kvs.attach.map (fun p => pyDepth p.1.2)).foldl max 0)
termination_by v => sizeOf v
decreasing_by
  · have := List.sizeOf_lt_of_mem x.2
    simp only [PyVal.list.sizeOf_spec]
    omega
  · have h1 := List.sizeOf_lt_of_mem p.2
    have h2 : sizeOf p.1.2 < sizeOf p.1 := by
      obtain ⟨a, b⟩ := p.1
      simp only [Prod.mk.sizeOf_spec]
      omega
    simp only [PyVal.dict.sizeOf_spec]
    omega

/-- Python `str(v)` for a JSON value: identity on strings, decimal on
integers, `True`/`False`/`None` on the remaining scalars, and the `repr`
rendering (with always-sufficient fuel) on lists and dicts. -/
def pyStr (v : PyVal) : Str :=
  match v with
  | .str s => s
  | .int n => intRepr n
  | .bool b => if b then "True".data else "False".data
  | .pynone => "None".data
  | .list xs => pyReprFuel (pyDepth (.list xs)) (.list xs)
  | .dict kvs => pyReprFuel (pyDepth (.dict kvs)) (.dict kvs)

/-- `e.get(key, "")` for an entry dict, with the source's `""` default. -/
def pyGet (e : PyDict) (k : Str) : PyVal :=
  match e.lookup k with
  | some v => v
  | none => .str []

/-- `clean_spaces(str(e.get("address", "")))` — the raw display address of an
entry (source line 141). -/
def entry_address (e : PyDict) : Str :=
  clean_spaces (pyStr (pyGet e "address".data))

/-- `clean_spaces(str(e.get("gate", "")))` (source line 142). -/
def entry_gate (e : PyDict) : Str :=
  clean_spaces (pyStr (pyGet e "gate".data))

/-- `norm_type(str(e.get("type", "")))` (source line 143). -/
def entry_type (e : PyDict) : Str :=
  norm_type (pyStr (pyGet e "type".data))

/-- `defaultdict(list)` bucket update: `buckets[k].extend(vs)` — appends to
the existing bucket, or creates the key (even when `vs` is empty). -/
def extendAt (bkts : List (Str × List PyDict)) (k : Str) (vs : List PyDict) :
    List (Str × List PyDict) :=
  if bkts.any (fun p => p.1 == k) then
    bkts.map (fun p => if p.1 == k then (p.1, p.2 ++ vs) else p)
  else bkts ++ [(k, vs)]

/-- One step of the bucketing loop of `clean_groups` (source lines 130–133):
a list-valued community contributes its dict-shaped entries to the bucket of
its normalized key, any other value is skipped. -/
def bucketStep (bkts : List (Str × List PyDict)) (p : Str × PyVal) :
    List (Str × List PyDict) :=
  match p.2 with
  | .list xs => extendAt bkts (norm_community p.1) (xs.filterMap asDict)
  | _ => bkts

/-- Phase 1 of `clean_groups` (source lines 129–133): bucket the dict-shaped
entries of each list-valued community under its normalized community key. -/
def buildBuckets (kvs : PyDict) : List (Str × List PyDict) :=
  kvs.foldl bucketStep []

/-- The per-address accumulator of `clean_groups`: the parallel
`addresses`/`types`/`gates` lists. -/
abbrev AddrAgg := List Str × List Str × List Str

/-- `by_addr.setdefault(k, …)` followed by the three appends
(source lines 146–149). -/
def addToByAddr (m : List (Str × AddrAgg)) (k : Str) (a t g : Str) :
    List (Str × AddrAgg) :=
  if m.any (fun p => p.1 == k) then
    m.map (fun p =>
      if p.1 == k then (p.1, (p.2.1 ++ [a], p.2.2.1 ++ [t], p.2.2.2 ++ [g]))
      else p)
  else m ++ [(k, ([a], [t], [g]))]

/-- The `by_addr` grouping loop of `clean_groups` (source lines 139–149). -/
def buildByAddr (entries : List PyDict) : List (Str × AddrAgg) :=
  entries.foldl (fun m e =>
    addToByAddr m (norm_address (entry_address e))
      (entry_address e) (entry_type e) (entry_gate e)) []

/-- A cleaned output entry. -/
structure CleanEntry where
  address : Str
  gate : Str
  type : Str
deriving DecidableEq, Repr

/-- The aggregation of one address group (source lines 152–160): majority
display address with title-cased-key fallback, majority type with `"Unknown"`
fallback, deduplicated gate tokens joined by spaces. -/
def aggEntry (addr_norm : Str) (agg : AddrAgg) : CleanEntry :=
  let ma := most_common agg.1
  let mt := most_common agg.2.1
  { address := if ma.isEmpty then title_case_smart addr_norm else ma
    gate := joinSep ' '
      (uniq_preserve ((agg.2.2.map extract_gate_tokens).flatten))
    type := if mt.isEmpty then "Unknown".data else mt }

/-- Plain dict assignment `m[k] = v` (replace in place or append). -/
def dictSet (m : List (Str × List CleanEntry)) (k : Str)
    (v : List CleanEntry) : List (Str × List CleanEntry) :=
  if m.any (fun p => p.1 == k) then
    m.map (fun p => if p.1 == k then (p.1, v) else p)
  else m ++ [(k, v)]

/-- One step of the output loop of `clean_groups` (source lines 136–162):
aggregate one community bucket and store it under its title-cased key. -/
def outStep (out : List (Str × List CleanEntry)) (p : Str × List PyDict) :
    List (Str × List CleanEntry) :=
  dictSet out (title_case_smart p.1)
    ((buildByAddr p.2).map (fun q => aggEntry q.1 q.2))

/-- Phase 2 of `clean_groups` (source lines 135–163): aggregate each
community bucket by normalized address key and store the cleaned entries
under the title-cased community key. -/
def processBuckets (bkts : List (Str × List PyDict)) :
    List (Str × List CleanEntry) :=
  bkts.foldl outStep []

/-- `clean_groups` from the source.  `(groups or {}).items()` keeps a truthy
value as is and replaces a falsy one by `{}`; calling `.items()` on a truthy
non-dict raises `AttributeError`, modelled as `Option.none`. -/
def clean_groups (groups : PyVal) : Option (List (Str × List CleanEntry)) :=
  let g := if truthy groups then groups else PyVal.dict []
  match g with
  | .dict kvs => some (processBuckets (buildBuckets kvs))
  | _ => Option.none

/-- The transform part of `main` (source lines 176–177):
`clean_groups(payload.get("groups", {}))`. -/
def clean_payload (payload : PyDict) : Option (List (Str × List CleanEntry)) :=
  clean_groups ((payload.lookup "groups".data).getD (PyVal.dict []))

/-!  ## Specification predicates used in the claim statements  -/

/-- Every token is non-empty and consists of characters satisfying `p`. -/
def GoodToks (p : Char → Bool) (ts : List Str) : Prop :=
  ∀ t ∈ ts, t ≠ [] ∧ ∀ c ∈ t, p c = true

/-- The string contains no ASCII uppercase letter. -/
def NoUpper (s : Str) : Prop := ∀ c ∈ s, isUpperChar c = false

/-- Reassemble a string from a leading gap and a list of (run, following gap)
pairs. -/
def glueRuns (g0 : Str) : List (Str × Str) → Str
  | [] => g0
  | (r, g) :: ps => g0 ++ r ++ glueRuns g ps

/-- `runs` are exactly the maximal runs of `p`-characters of `s`, in order:
`s` splits into an initial gap, then the runs separated by the gaps, where
runs are non-empty and all-`p`, gaps are `p`-free, and every gap standing
between two runs is non-empty (maximality). -/
def RunsSpecP (p : Char → Bool) (s : Str) (runs : List Str) : Prop :=
  ∃ g0 ps, (ps.map Prod.fst = runs) ∧ s = glueRuns g0 ps ∧
    (∀ c ∈ g0, p c = false) ∧
    (∀ q ∈ ps, q.1 ≠ [] ∧ (∀ c ∈ q.1, p c = true) ∧ (∀ c ∈ q.2, p c = false)) ∧
    (∀ q ∈ ps.dropLast, q.2 ≠ [])

/-- `dl` is `l` deduplicated keeping first occurrences: an order-preserving
duplicate-free selection with the same members, in which everything standing
before an element `a` of `dl` occurs in `l` before the first occurrence
of `a`. -/
def FirstDedup (l dl : List Str) : Prop :=
  dl.Sublist l ∧ dl.Nodup ∧ (∀ a, a ∈ dl ↔ a ∈ l) ∧
  ∀ pre a post, dl = pre ++ a :: post →
    ∃ l1 l2, l = l1 ++ a :: l2 ∧ a ∉ l1 ∧ ∀ v ∈ l1, v ∈ pre

/-- `r` is the most frequent non-empty value of `vs`, ties broken in favour
of the value encountered first: `r` is non-empty, occurs in `vs`, no
non-empty value has a larger count, and every non-empty value occurring
before `r`'s first occurrence has a strictly smaller count. -/
def majority_pick (r : Str) (vs : List Str) : Prop :=
  r ≠ [] ∧ r ∈ vs ∧
  (∀ v ∈ vs, v ≠ [] → vs.count v ≤ vs.count r) ∧
  ∃ l1 l2, vs.filter (fun v => ¬ v.isEmpty) = l1 ++ r :: l2 ∧
    ∀ v ∈ l1, vs.count v < vs.count r

/-- The per-token transformation of `title_case_smart` with the acronym-
preservation branch removed (spec: the branch is dead on the lowercase
inputs this pipeline supplies). -/
def titleTokNoAcr (i : Nat) (w : Str) : Str :=
  if pyIsDigitStr w then w
  else
    let lower := pyLower w
    if i ≠ 0 && lower ∈ smallWords then lower else capFirst lower

/-- `title_case_smart` with the acronym branch removed (modelled from the
spec's description of the effective behaviour on normalized input). -/
def title_case_noacr (s : Str) : Str :=
  let words := (splitChar ' ' (clean_spaces s)).filter (fun w => ¬ w.isEmpty)
  joinSep ' ' (words.enum.map (fun p => titleTokNoAcr p.1 p.2))

/-- The ordered list of contributions made to the bucket of normalized
community key `k`: one element (its list of dict-shaped entries) per
list-valued input community whose name normalizes to `k`. -/
def contribs (kvs : PyDict) (k : Str) : List (List PyDict) :=
  kvs.filterMap (fun p =>
    match p.2 with
    | .list xs =>
      if norm_community p.1 = k then some (xs.filterMap asDict) else Option.none
    | _ => Option.none)

/-!  ## Character-level facts  -/

theorem chr_toNat {n : Nat} (h : n < 55296) : (Char.ofNat n).toNat = n := by
  rw [Char.ofNat, dif_pos (Or.inl h)]
  rfl

theorem isLowerAlnum_not_upper {c : Char} (h : isLowerAlnum c = true) :
    isUpperChar c = false := by
  simp only [isLowerAlnum, isLowerChar, isDigitChar, Bool.or_eq_true,
    Bool.and_eq_true, decide_eq_true_eq] at h
  simp only [isUpperChar, Bool.and_eq_false_iff, decide_eq_false_iff_not]
  omega

theorem space_not_upper : isUpperChar ' ' = false := by decide

theorem isLowerAlnum_notSpace {c : Char} (h : isLowerAlnum c = true) :
    notSpace c = true := by
  simp only [isLowerAlnum, isLowerChar, isDigitChar, Bool.or_eq_true,
    Bool.and_eq_true, decide_eq_true_eq] at h
  have hval : c.toNat ≠ 32 ∧ c.toNat ≠ 9 ∧ c.toNat ≠ 10 ∧ c.toNat ≠ 13 ∧
      c.toNat ≠ 11 ∧ c.toNat ≠ 12 := by omega
  simp only [notSpace, pyIsSpace, Bool.not_eq_true']
  simp only [Bool.or_eq_false_iff, beq_eq_false_iff_ne, ne_eq]
  refine ⟨⟨⟨⟨⟨?_, ?_⟩, ?_⟩, ?_⟩, ?_⟩, ?_⟩ <;>
    (intro hc; subst hc; simp_all)

theorem pyLowerChar_not_upper (c : Char) : isUpperChar (pyLowerChar c) = false := by
  unfold pyLowerChar
  split
  · next h =>
    simp only [isUpperChar, Bool.and_eq_true, decide_eq_true_eq] at h
    have : (Char.ofNat (c.toNat + 32)).toNat = c.toNat + 32 := chr_toNat (by omega)
    simp only [isUpperChar, Bool.and_eq_false_iff, decide_eq_false_iff_not, this]
    omega
  · next h => simpa using h

theorem pyLowerChar_eq_self {c : Char} (h : isUpperChar c = false) :
    pyLowerChar c = c := by
  unfold pyLowerChar
  simp [h]

theorem pyLowerChar_space : pyLowerChar ' ' = ' ' := by decide

theorem pyUpperChar_eq_self {c : Char} (h : isLowerChar c = false) :
    pyUpperChar c = c := by
  unfold pyUpperChar
  simp [h]

theorem pyLowerChar_pyUpperChar {c : Char} (h : isLowerAlnum c = true) :
    pyLowerChar (pyUpperChar c) = c := by
  have h' : isLowerChar c = true ∨ isDigitChar c = true := by
    simpa [isLowerAlnum] using h
  rcases h' with hl | hd
  · simp only [isLowerChar, Bool.and_eq_true, decide_eq_true_eq] at hl
    unfold pyUpperChar
    rw [if_pos]
    · have ht : (Char.ofNat (c.toNat - 32)).toNat = c.toNat - 32 :=
        chr_toNat (by omega)
      unfold pyLowerChar
      rw [if_pos]
      · rw [ht]
        have : c.toNat - 32 + 32 = c.toNat := by omega
        rw [this, Char.ofNat_toNat]
      · simp only [isUpperChar, Bool.and_eq_true, decide_eq_true_eq, ht]
        omega
    · simp only [isLowerChar, Bool.and_eq_true, decide_eq_true_eq]
      omega
  · have h1 : isLowerChar c = false := by
      simp only [isDigitChar, Bool.and_eq_true, decide_eq_true_eq] at hd
      simp only [isLowerChar, Bool.and_eq_false_iff, decide_eq_false_iff_not]
      omega
    rw [pyUpperChar_eq_self h1, pyLowerChar_eq_self (isLowerAlnum_not_upper h)]

theorem pyLower_no_upper (s : Str) : NoUpper (pyLower s) := by
  intro c hc
  rcases List.mem_map.1 hc with ⟨a, _, rfl⟩
  exact pyLowerChar_not_upper a

theorem pyLower_eq_self {s : Str} (h : NoUpper s) : pyLower s = s := by
  unfold pyLower
  rw [List.map_congr_left (fun a ha => pyLowerChar_eq_self (h a ha))]
  exact List.map_id' s

/-!  ## `maxRuns` structure lemmas  -/

theorem maxRuns_nil (p : Char → Bool) : maxRuns p [] = [] := rfl

theorem maxRuns_cons_neg {p : Char → Bool} {c : Char} (cs : Str)
    (h : p c = false) : maxRuns p (c :: cs) = maxRuns p cs := by
  simp [maxRuns, maxRunsAux, h]

theorem maxRunsAux_run (p : Char → Bool) :
    ∀ (cs acc : Str), acc ≠ [] →
      maxRunsAux p acc cs =
        (acc.reverse ++ cs.takeWhile p) :: maxRuns p (cs.dropWhile p)
  | [], acc, h => by
    have : acc.isEmpty = false := by
      cases acc
      · exact absurd rfl h
      · rfl
    simp [maxRunsAux, this, maxRuns]
  | d :: ds, acc, h => by
    by_cases hd : p d = true
    · have ih := maxRunsAux_run p ds (d :: acc) (by simp)
      simp [maxRunsAux, hd, ih, List.takeWhile_cons, List.dropWhile_cons]
    · have hd' : p d = false := by simpa using hd
      have : acc.isEmpty = false := by
        cases acc
        · exact absurd rfl h
        · rfl
      simp [maxRunsAux, hd', this, List.takeWhile_cons, List.dropWhile_cons,
        maxRuns]

theorem maxRuns_cons_pos {p : Char → Bool} {c : Char} (cs : Str)
    (h : p c = true) :
    maxRuns p (c :: cs) =
      (c :: cs.takeWhile p) :: maxRuns p (cs.dropWhile p) := by
  have := maxRunsAux_run p cs [c] (by simp)
  simpa [maxRuns, maxRunsAux, h] using this

theorem maxRunsAux_sound (p : Char → Bool) :
    ∀ (cs acc : Str), (∀ c ∈ acc, p c = true) →
      ∀ t ∈ maxRunsAux p acc cs,
        t ≠ [] ∧ ∀ c ∈ t, p c = true ∧ (c ∈ acc ∨ c ∈ cs)
  | [], acc, hacc => by
    intro t ht
    by_cases h : acc = []
    · subst h
      simp [maxRunsAux] at ht
    · have : acc.isEmpty = false := by
        cases acc
        · exact absurd rfl h
        · rfl
      simp only [maxRunsAux, this, Bool.false_eq_true, if_false,
        List.mem_singleton] at ht
      subst ht
      refine ⟨by simpa using h, fun c hc => ?_⟩
      have hc' : c ∈ acc := by simpa using hc
      exact ⟨hacc c hc', Or.inl hc'⟩
  | d :: ds, acc, hacc => by
    intro t ht
    by_cases hd : p d = true
    · simp only [maxRunsAux, hd, if_true] at ht
      have := maxRunsAux_sound p ds (d :: acc)
        (by intro c hc; rcases List.mem_cons.1 hc with rfl | hc
            · exact hd
            · exact hacc c hc) t ht
      refine ⟨this.1, fun c hc => ?_⟩
      rcases this.2 c hc with ⟨hp, hmem⟩
      refine ⟨hp, ?_⟩
      rcases hmem with hmem | hmem
      · rcases List.mem_cons.1 hmem with rfl | hmem
        · exact Or.inr (List.mem_cons_self _ _)
        · exact Or.inl hmem
      · exact Or.inr (List.mem_cons_of_mem _ hmem)
    · have hd' : p d = false := by simpa using hd
      by_cases hae : acc = []
      · subst hae
        simp only [maxRunsAux, hd', Bool.false_eq_true, if_false,
          List.isEmpty_nil, if_true] at ht
        have := maxRunsAux_sound p ds [] (by simp) t ht
        refine ⟨this.1, fun c hc => ?_⟩
        rcases this.2 c hc with ⟨hp, hmem⟩
        rcases hmem with hmem | hmem
        · simp at hmem
        · exact ⟨hp, Or.inr (List.mem_cons_of_mem _ hmem)⟩
      · have hne : acc.isEmpty = false := by
          cases acc
          · exact absurd rfl hae
          · rfl
        simp only [maxRunsAux, hd', Bool.false_eq_true, if_false, hne,
          List.mem_cons] at ht
        rcases ht with rfl | ht
        · refine ⟨by simpa using hae, fun c hc => ?_⟩
          have hc' : c ∈ acc := by simpa using hc
          exact ⟨hacc c hc', Or.inl hc'⟩
        · have := maxRunsAux_sound p ds [] (by simp) t ht
          refine ⟨this.1, fun c hc => ?_⟩
          rcases this.2 c hc with ⟨hp, hmem⟩
          rcases hmem with hmem | hmem
          · simp at hmem
          · exact ⟨hp, Or.inr (List.mem_cons_of_mem _ hmem)⟩

theorem maxRuns_goodToks (p : Char → Bool) (s : Str) :
    GoodToks p (maxRuns p s) := by
  intro t ht
  have := maxRunsAux_sound p s [] (by simp) t ht
  exact ⟨this.1, fun c hc => (this.2 c hc).1⟩

theorem mem_of_mem_maxRuns {p : Char → Bool} {s t : Str} {c : Char}
    (ht : t ∈ maxRuns p s) (hc : c ∈ t) : c ∈ s := by
  have := maxRunsAux_sound p s [] (by simp) t ht
  rcases (this.2 c hc).2 with h | h
  · simp at h
  · exact h

theorem maxRunsAux_shift (p : Char → Bool) :
    ∀ (t acc r : Str), (∀ c ∈ t, p c = true) →
      maxRunsAux p acc (t ++ r) = maxRunsAux p (t.reverse ++ acc) r
  | [], acc, r, _ => by simp
  | c :: t, acc, r, h => by
    have hc : p c = true := h c (List.mem_cons_self _ _)
    have ih := maxRunsAux_shift p t (c :: acc) r
      (fun d hd => h d (List.mem_cons_of_mem _ hd))
    simp [maxRunsAux, hc, ih, List.reverse_cons, List.append_assoc]

theorem maxRuns_joinSep {p : Char → Bool} {sep : Char} (hsep : p sep = false) :
    ∀ (ts : List Str), GoodToks p ts → maxRuns p (joinSep sep ts) = ts
  | [], _ => rfl
  | [t], h => by
    have ht := h t (List.mem_singleton.2 rfl)
    have hshift := maxRunsAux_shift p t [] [] ht.2
    have hne : t.reverse ++ [] ≠ [] := by simpa using ht.1
    have hnee : (t.reverse ++ []).isEmpty = false := by
      cases hcase : t.reverse ++ [] with
      | nil => exact absurd hcase hne
      | cons a as => rfl
    show maxRuns p t = [t]
    unfold maxRuns
    rw [← List.append_nil t, hshift]
    simp only [maxRunsAux, hnee, Bool.false_eq_true, if_false]
    simp
  | t :: t' :: ts, h => by
    have ht := h t (List.mem_cons_self _ _)
    have hrest : GoodToks p (t' :: ts) :=
      fun u hu => h u (List.mem_cons_of_mem _ hu)
    have ih := maxRuns_joinSep hsep (t' :: ts) hrest
    have hshift := maxRunsAux_shift p t [] (sep :: joinSep sep (t' :: ts)) ht.2
    have hne0 : t.reverse ++ [] ≠ [] := by simpa using ht.1
    have hne : (t.reverse ++ []).isEmpty = false := by
      cases hcase : t.reverse ++ [] with
      | nil => exact absurd hcase hne0
      | cons a as => rfl
    simp only [joinSep, maxRuns] at *
    rw [hshift]
    simp only [maxRunsAux, hsep, Bool.false_eq_true, if_false, hne]
    rw [ih]
    simp

/-!  ## `joinSep`, `pyStrip` and `clean_spaces` lemmas  -/

theorem mem_joinSep {sep : Char} {c : Char} :
    ∀ {ts : List Str}, c ∈ joinSep sep ts → (∃ t ∈ ts, c ∈ t) ∨ c = sep
  | [], h => by simp [joinSep] at h
  | [t], h => by
    simp only [joinSep] at h
    exact Or.inl ⟨t, List.mem_singleton.2 rfl, h⟩
  | t :: t' :: ts, h => by
    simp only [joinSep, List.mem_append, List.mem_cons] at h
    rcases h with h | h | h
    · exact Or.inl ⟨t, List.mem_cons_self _ _, h⟩
    · exact Or.inr h
    · rcases mem_joinSep h with ⟨u, hu, hc⟩ | h
      · exact Or.inl ⟨u, List.mem_cons_of_mem _ hu, hc⟩
      · exact Or.inr h

theorem joinSep_cons_cons (sep : Char) (t t' : Str) (ts : List Str) :
    joinSep sep (t :: t' :: ts) = t ++ sep :: joinSep sep (t' :: ts) := rfl

theorem joinSep_head (sep : Char) :
    ∀ {t0 : Str} {ts : List Str}, (∀ t ∈ t0 :: ts, t ≠ []) →
      ∃ c cs, joinSep sep (t0 :: ts) = c :: cs ∧ c ∈ t0 := by
  intro t0 ts hts
  rcases hcase : t0 with _ | ⟨c, cs⟩
  · exact absurd hcase (hts t0 (List.mem_cons_self _ _))
  · rcases ts with _ | ⟨t', ts'⟩
    · exact ⟨c, cs, by simp [joinSep, hcase], by simp [hcase]⟩
    · refine ⟨c, cs ++ sep :: joinSep sep (t' :: ts'), ?_, by simp [hcase]⟩
      subst hcase
      simp [joinSep_cons_cons]

theorem joinSep_append_single (sep : Char) :
    ∀ (ts : List Str) (t : Str),
      joinSep sep (ts ++ [t]) =
        if ts.isEmpty then t else joinSep sep ts ++ sep :: t
  | [], t => rfl
  | [u], t => rfl
  | u :: u' :: ts, t => by
    have ih := joinSep_append_single sep (u' :: ts) t
    have h1 : (u :: u' :: ts) ++ [t] = u :: u' :: (ts ++ [t]) := by simp
    rw [h1, joinSep_cons_cons]
    have h2 : u' :: (ts ++ [t]) = (u' :: ts) ++ [t] := by simp
    rw [h2, ih]
    simp [joinSep_cons_cons, List.append_assoc]

theorem joinSep_reverse (sep : Char) :
    ∀ (ts : List Str),
      (joinSep sep ts).reverse = joinSep sep (ts.reverse.map List.reverse)
  | [] => rfl
  | [t] => by simp [joinSep]
  | t :: t' :: ts => by
    have ih := joinSep_reverse sep (t' :: ts)
    rw [joinSep_cons_cons, List.reverse_append, List.reverse_cons, ih]
    have h2 : ((t :: t' :: ts).reverse).map List.reverse
        = ((t' :: ts).reverse).map List.reverse ++ [t.reverse] := by
      rw [List.reverse_cons, List.map_append]
      rfl
    rw [h2, joinSep_append_single]
    have hne0 : ((t' :: ts).reverse).map List.reverse ≠ [] := by simp
    have hne : (((t' :: ts).reverse).map List.reverse).isEmpty = false := by
      cases hcase : ((t' :: ts).reverse).map List.reverse with
      | nil => exact absurd hcase hne0
      | cons a as => rfl
    rw [hne]
    simp [List.append_assoc]

theorem pyStrip_joinSep {ts : List Str} (h : GoodToks notSpace ts) :
    pyStrip (joinSep ' ' ts) = joinSep ' ' ts := by
  rcases ts with _ | ⟨t, rest⟩
  · rfl
  · have hnn : ∀ u ∈ t :: rest, u ≠ [] := fun u hu => (h u hu).1
    obtain ⟨c, cs, heq, hmem⟩ := joinSep_head ' ' hnn
    have hc : notSpace c = true := (h t (List.mem_cons_self _ _)).2 c hmem
    have hsp : pyIsSpace c = false := by simpa [notSpace] using hc
    have step1 : (joinSep ' ' (t :: rest)).dropWhile pyIsSpace
        = joinSep ' ' (t :: rest) := by
      rw [heq, List.dropWhile_cons, hsp]
      simp
    have hgrev : GoodToks notSpace ((t :: rest).reverse.map List.reverse) := by
      intro u hu
      rcases List.mem_map.1 hu with ⟨v, hv, rfl⟩
      have hv' := h v (List.mem_reverse.1 hv)
      exact ⟨by simpa using hv'.1, fun d hd => hv'.2 d (List.mem_reverse.1 hd)⟩
    have hner : ((t :: rest).reverse).map List.reverse ≠ [] := by simp
    rcases hrev : ((t :: rest).reverse).map List.reverse with _ | ⟨u, us⟩
    · exact absurd hrev hner
    · have hnnr : ∀ w ∈ u :: us, w ≠ [] := by
        intro w hw
        exact (hgrev w (hrev ▸ hw)).1
      obtain ⟨c', cs', heq', hmem'⟩ := joinSep_head ' ' hnnr
      have hcu : notSpace c' = true :=
        (hgrev u (hrev ▸ List.mem_cons_self _ _)).2 c' hmem'
      have hsp' : pyIsSpace c' = false := by simpa [notSpace] using hcu
      have step2 : ((joinSep ' ' (t :: rest)).reverse).dropWhile pyIsSpace
          = (joinSep ' ' (t :: rest)).reverse := by
        rw [joinSep_reverse, hrev, heq', List.dropWhile_cons, hsp']
        simp
      unfold pyStrip
      rw [step1, step2, List.reverse_reverse]

theorem clean_spaces_eq (s : Str) :
    clean_spaces s = joinSep ' ' (maxRuns notSpace s) :=
  pyStrip_joinSep (maxRuns_goodToks notSpace s)

theorem clean_spaces_joinSep {ts : List Str} (h : GoodToks notSpace ts) :
    clean_spaces (joinSep ' ' ts) = joinSep ' ' ts := by
  rw [clean_spaces_eq, maxRuns_joinSep (by decide) ts h]

theorem clean_spaces_idem (s : Str) :
    clean_spaces (clean_spaces s) = clean_spaces s := by
  rw [clean_spaces_eq s]
  exact clean_spaces_joinSep (maxRuns_goodToks notSpace s)

theorem mem_clean_spaces {s : Str} {c : Char} (h : c ∈ clean_spaces s) :
    c ∈ s ∨ c = ' ' := by
  rw [clean_spaces_eq] at h
  rcases mem_joinSep h with ⟨t, ht, hc⟩ | h
  · exact Or.inl (mem_of_mem_maxRuns ht hc)
  · exact Or.inr h

/-!  ## `splitChar`, `subRuns`, `strip_accents` lemmas  -/

theorem splitCharAux_cons_sep (sep : Char) (acc cs : Str) :
    splitCharAux sep acc (sep :: cs) = acc.reverse :: splitCharAux sep [] cs := by
  simp [splitCharAux]

theorem splitCharAux_cons_ne {sep c : Char} (h : c ≠ sep) (acc cs : Str) :
    splitCharAux sep acc (c :: cs) = splitCharAux sep (c :: acc) cs := by
  have hbeq : (c == sep) = false := by simpa using h
  simp [splitCharAux, hbeq]

theorem mem_splitCharAux :
    ∀ (sep : Char) (cs acc t : Str), (∀ c ∈ acc, c ≠ sep) →
      t ∈ splitCharAux sep acc cs →
      ∀ c ∈ t, (c ∈ acc ∨ c ∈ cs) ∧ c ≠ sep
  | sep, [], acc, t, hacc, ht => by
    simp only [splitCharAux, List.mem_singleton] at ht
    subst ht
    intro c hc
    have hc' : c ∈ acc := by simpa using hc
    exact ⟨Or.inl hc', hacc c hc'⟩
  | sep, d :: ds, acc, t, hacc, ht => by
    by_cases hd : d = sep
    · subst hd
      rw [splitCharAux_cons_sep] at ht
      rcases List.mem_cons.1 ht with rfl | ht
      · intro c hc
        have hc' : c ∈ acc := by simpa using hc
        exact ⟨Or.inl hc', hacc c hc'⟩
      · intro c hc
        have := mem_splitCharAux d ds [] t (by simp) ht c hc
        rcases this with ⟨hmem, hne⟩
        rcases hmem with h | h
        · simp at h
        · exact ⟨Or.inr (List.mem_cons_of_mem _ h), hne⟩
    · rw [splitCharAux_cons_ne hd] at ht
      intro c hc
      have := mem_splitCharAux sep ds (d :: acc)
        t
        (by intro c' hc'
            rcases List.mem_cons.1 hc' with rfl | hc'
            · exact hd
            · exact hacc c' hc')
        ht c hc
      rcases this with ⟨hmem, hne⟩
      rcases hmem with h | h
      · rcases List.mem_cons.1 h with rfl | h
        · exact ⟨Or.inr (List.mem_cons_self _ _), hne⟩
        · exact ⟨Or.inl h, hne⟩
      · exact ⟨Or.inr (List.mem_cons_of_mem _ h), hne⟩

theorem mem_splitChar {sep : Char} {s t : Str} (ht : t ∈ splitChar sep s) :
    ∀ c ∈ t, c ∈ s ∧ c ≠ sep := by
  intro c hc
  have := mem_splitCharAux sep s [] t (by simp) ht c hc
  rcases this with ⟨hmem, hne⟩
  rcases hmem with h | h
  · simp at h
  · exact ⟨h, hne⟩

theorem splitCharAux_shift (sep : Char) :
    ∀ (t acc r : Str), (∀ c ∈ t, c ≠ sep) →
      splitCharAux sep acc (t ++ r) = splitCharAux sep (t.reverse ++ acc) r
  | [], acc, r, _ => by simp
  | c :: t, acc, r, h => by
    have hc : (c == sep) = false := by
      simpa using h c (List.mem_cons_self _ _)
    have ih := splitCharAux_shift sep t (c :: acc) r
      (fun d hd => h d (List.mem_cons_of_mem _ hd))
    simp [splitCharAux, hc, ih, List.append_assoc]

theorem splitChar_joinSep {sep : Char} :
    ∀ (ts : List Str), ts ≠ [] → (∀ t ∈ ts, ∀ c ∈ t, c ≠ sep) →
      splitChar sep (joinSep sep ts) = ts
  | [], h, _ => absurd rfl h
  | [t], _, hts => by
    show splitCharAux sep [] (joinSep sep [t]) = [t]
    have : joinSep sep [t] = t ++ [] := by simp [joinSep]
    rw [this, splitCharAux_shift sep t [] [] (hts t (List.mem_singleton.2 rfl))]
    simp [splitCharAux]
  | t :: t' :: ts, _, hts => by
    show splitCharAux sep [] (joinSep sep (t :: t' :: ts)) = _
    rw [joinSep_cons_cons,
      splitCharAux_shift sep t [] _ (hts t (List.mem_cons_self _ _))]
    have ih := splitChar_joinSep (t' :: ts) (by simp)
      (fun u hu => hts u (List.mem_cons_of_mem _ hu))
    simp only [splitCharAux, beq_self_eq_true, if_true]
    rw [List.append_nil, List.reverse_reverse]
    exact congrArg (t :: ·) ih

theorem mem_subRunsAux {keep : Char → Bool} :
    ∀ {s : Str} {b : Bool} {c : Char}, c ∈ subRunsAux keep b s →
      (c ∈ s ∧ keep c = true) ∨ c = ' '
  | [], b, c, h => by simp [subRunsAux] at h
  | d :: ds, b, c, h => by
    by_cases hd : keep d = true
    · simp only [subRunsAux, hd, if_true, List.mem_cons] at h
      rcases h with rfl | h
      · exact Or.inl ⟨List.mem_cons_self _ _, hd⟩
      · rcases mem_subRunsAux h with ⟨hm, hk⟩ | h
        · exact Or.inl ⟨List.mem_cons_of_mem _ hm, hk⟩
        · exact Or.inr h
    · have hd' : keep d = false := by simpa using hd
      rcases b with _ | _
      · simp only [subRunsAux, hd', Bool.false_eq_true, if_false,
          List.mem_cons] at h
        rcases h with rfl | h
        · exact Or.inr rfl
        · rcases mem_subRunsAux h with ⟨hm, hk⟩ | h
          · exact Or.inl ⟨List.mem_cons_of_mem _ hm, hk⟩
          · exact Or.inr h
      · simp only [subRunsAux, hd', Bool.false_eq_true, if_false, if_true] at h
        rcases mem_subRunsAux h with ⟨hm, hk⟩ | h
        · exact Or.inl ⟨List.mem_cons_of_mem _ hm, hk⟩
        · exact Or.inr h

theorem subRunsAux_cons_keep {keep : Char → Bool} {c : Char}
    (h : keep c = true) (b : Bool) (cs : Str) :
    subRunsAux keep b (c :: cs) = c :: subRunsAux keep false cs := by
  simp [subRunsAux, h]

theorem subRunsAux_run {keep : Char → Bool} :
    ∀ (t : Str) (b : Bool) (r : Str), t ≠ [] → (∀ c ∈ t, keep c = true) →
      subRunsAux keep b (t ++ r) = t ++ subRunsAux keep false r
  | [], _, _, h, _ => absurd rfl h
  | [c], b, r, _, h => by
    rw [List.singleton_append, subRunsAux_cons_keep (h c (List.mem_singleton.2 rfl))]
    rfl
  | c :: c' :: t, b, r, _, h => by
    have ih := subRunsAux_run (c' :: t) false r (by simp)
      (fun d hd => h d (List.mem_cons_of_mem _ hd))
    have hcons : (c :: c' :: t) ++ r = c :: ((c' :: t) ++ r) := rfl
    rw [hcons, subRunsAux_cons_keep (h c (List.mem_cons_self _ _)), ih]
    rfl

theorem subRunsAux_state {keep : Char → Bool} {c : Char} (cs : Str)
    (hc : keep c = true) (b b' : Bool) :
    subRunsAux keep b (c :: cs) = subRunsAux keep b' (c :: cs) := by
  simp [subRunsAux, hc]

theorem subRuns_joinSep {keep : Char → Bool} (hsep : keep ' ' = false) :
    ∀ (ts : List Str), GoodToks keep ts →
      regexSubToSpace keep (joinSep ' ' ts) = joinSep ' ' ts
  | [], _ => rfl
  | [t], h => by
    have ht := h t (List.mem_singleton.2 rfl)
    show subRunsAux keep false (joinSep ' ' [t]) = joinSep ' ' [t]
    have : joinSep ' ' [t] = t ++ [] := by simp [joinSep]
    rw [this, subRunsAux_run t false [] ht.1 ht.2]
    rfl
  | t :: t' :: ts, h => by
    have ht := h t (List.mem_cons_self _ _)
    have hrest : GoodToks keep (t' :: ts) :=
      fun u hu => h u (List.mem_cons_of_mem _ hu)
    have ih : subRunsAux keep false (joinSep ' ' (t' :: ts))
        = joinSep ' ' (t' :: ts) := subRuns_joinSep hsep (t' :: ts) hrest
    show subRunsAux keep false (joinSep ' ' (t :: t' :: ts)) = _
    rw [joinSep_cons_cons, subRunsAux_run t false _ ht.1 ht.2]
    have hnn : ∀ u ∈ t' :: ts, u ≠ [] := fun u hu => (hrest u hu).1
    obtain ⟨c, cs, heq, hmem⟩ := joinSep_head ' ' hnn
    have hc : keep c = true := (hrest t' (List.mem_cons_self _ _)).2 c hmem
    have : subRunsAux keep false (' ' :: joinSep ' ' (t' :: ts))
        = ' ' :: subRunsAux keep false (joinSep ' ' (t' :: ts)) := by
      simp only [subRunsAux, hsep, Bool.false_eq_true, if_false]
      rw [heq, subRunsAux_state cs hc true false]
    rw [this, ih]

theorem lookup_eq_none_of_ne {β : Type} :
    ∀ (tbl : List (Char × β)) (c : Char), (∀ p ∈ tbl, p.1 ≠ c) →
      tbl.lookup c = Option.none
  | [], _, _ => rfl
  | (k, v) :: tbl, c, h => by
    have hk : (c == k) = false := by
      have hne := h (k, v) (List.mem_cons_self _ _)
      simp only [beq_eq_false_iff_ne, ne_eq]
      exact fun hc => hne hc.symm
    simp only [List.lookup, hk]
    exact lookup_eq_none_of_ne tbl c (fun p hp => h p (List.mem_cons_of_mem _ hp))

theorem nfkdTable_keys_large : ∀ p ∈ nfkdTable, 190 < p.1.toNat := by decide

theorem nfkdChar_eq_self {c : Char} (h : c.toNat < 191) : nfkdChar c = [c] := by
  unfold nfkdChar
  rw [lookup_eq_none_of_ne nfkdTable c]
  intro p hp
  have := nfkdTable_keys_large p hp
  intro hc
  rw [hc] at this
  omega

theorem toNat_small_of_alnum_or_space {c : Char}
    (h : isLowerAlnum c = true ∨ c = ' ') : c.toNat < 191 := by
  rcases h with h | rfl
  · have h' : isLowerChar c = true ∨ isDigitChar c = true := by
      simpa [isLowerAlnum] using h
    rcases h' with h' | h' <;>
      (simp only [isLowerChar, isDigitChar, Bool.and_eq_true,
        decide_eq_true_eq] at h'; omega)
  · decide

theorem strip_accents_eq_self {s : Str}
    (h : ∀ c ∈ s, isLowerAlnum c = true ∨ c = ' ') :
    strip_accents s = s := by
  unfold strip_accents
  induction s with
  | nil => rfl
  | cons c cs ih =>
    have hc := h c (List.mem_cons_self _ _)
    have h1 : nfkdChar c = [c] :=
      nfkdChar_eq_self (toNat_small_of_alnum_or_space hc)
    have h2 : isCombining c = false := by
      have := toNat_small_of_alnum_or_space hc
      simp only [isCombining, Bool.and_eq_false_iff, decide_eq_false_iff_not]
      omega
    simp only [List.map_cons, h1, List.flatten_cons, List.cons_append,
      List.nil_append, List.filter_cons, h2, Bool.not_false, if_true]
    have := ih (fun d hd => h d (List.mem_cons_of_mem _ hd))
    simp only [this]

/-!  ## Canonical form of the normalized keys  -/

theorem sub_pipeline_canon (keep : Char → Bool)
    (hkeep : ∀ c, keep c = true → isLowerAlnum c = true) (u : Str) :
    ∃ ts, GoodToks isLowerAlnum ts ∧
      clean_spaces (regexSubToSpace keep u) = joinSep ' ' ts := by
  refine ⟨maxRuns notSpace (regexSubToSpace keep u), ?_, clean_spaces_eq _⟩
  intro t ht
  have hg := maxRuns_goodToks notSpace (regexSubToSpace keep u) t ht
  refine ⟨hg.1, fun c hc => ?_⟩
  have hcm : c ∈ subRunsAux keep false u := mem_of_mem_maxRuns ht hc
  have hns : notSpace c = true := hg.2 c hc
  rcases mem_subRunsAux hcm with ⟨_, hk⟩ | rfl
  · exact hkeep c hk
  · exact absurd hns (by decide)

theorem norm_community_canon (x : Str) :
    ∃ ts, GoodToks isLowerAlnum ts ∧ norm_community x = joinSep ' ' ts :=
  sub_pipeline_canon isLowerAlnum (fun _ h => h) _

theorem type_key_canon (t : Str) :
    ∃ ts, GoodToks isLowerAlnum ts ∧ type_key t = joinSep ' ' ts :=
  sub_pipeline_canon isLowerAlpha
    (fun c h => by
      simp only [isLowerAlnum, Bool.or_eq_true]
      exact Or.inl (by simpa [isLowerAlpha] using h)) _

theorem mem_canon_chars {u : Str} {keep : Char → Bool}
    (hkeep : ∀ c, keep c = true → isLowerAlnum c = true) :
    ∀ c ∈ clean_spaces (regexSubToSpace keep u),
      isLowerAlnum c = true ∨ c = ' ' := by
  intro c hc
  obtain ⟨ts, hts, heq⟩ := sub_pipeline_canon keep hkeep u
  rw [heq] at hc
  rcases mem_joinSep hc with ⟨t, ht, hct⟩ | rfl
  · exact Or.inl ((hts t ht).2 c hct)
  · exact Or.inr rfl

theorem abbrevTable_vals_good :
    ∀ p ∈ abbrevTable, p.2 ≠ [] ∧ ∀ c ∈ p.2, isLowerAlnum c = true := by
  decide

theorem lookup_mem {α β : Type} [BEq α] :
    ∀ (tbl : List (α × β)) (k : α) (v : β),
      tbl.lookup k = some v → ∃ k', (k', v) ∈ tbl
  | [], k, v, h => by simp [List.lookup] at h
  | (k0, v0) :: tbl, k, v, h => by
    rw [List.lookup_cons] at h
    by_cases hk : (k == k0) = true
    · rw [hk] at h
      simp only [Option.some.injEq] at h
      exact ⟨k0, by simp [h]⟩
    · have hk' : (k == k0) = false := by simpa using hk
      rw [hk'] at h
      obtain ⟨k', hmem⟩ := lookup_mem tbl k v h
      exact ⟨k', List.mem_cons_of_mem _ hmem⟩

theorem norm_address_canon (a : Str) :
    ∃ ts, GoodToks isLowerAlnum ts ∧ norm_address a = joinSep ' ' ts := by
  refine ⟨_, ?_, rfl⟩
  intro u hu
  rcases List.mem_map.1 hu with ⟨t, ht, rfl⟩
  have ht' := List.mem_filter.1 ht
  have htne : t ≠ [] := by simpa using ht'.2
  have htchars : ∀ c ∈ t, isLowerAlnum c = true := by
    intro c hc
    have := mem_splitChar ht'.1 c hc
    rcases mem_canon_chars (fun _ h => h) c this.1 with h | h
    · exact h
    · exact absurd h this.2
  cases hlk : abbrevTable.lookup (pyLower t) with
  | none =>
    refine ⟨?_, ?_⟩
    · cases t
      · exact absurd rfl htne
      · simp [pyLower]
    · intro c hc
      rcases List.mem_map.1 hc with ⟨d, hd, rfl⟩
      rw [pyLowerChar_eq_self (isLowerAlnum_not_upper (htchars d hd))]
      exact htchars d hd
  | some e =>
    obtain ⟨k', hmem⟩ := lookup_mem abbrevTable (pyLower t) e hlk
    have := abbrevTable_vals_good (k', e) hmem
    exact this

/-!  ## `NoUpper` facts for the title-caser inputs  -/

theorem noUpper_joinSep {ts : List Str} (h : GoodToks isLowerAlnum ts) :
    NoUpper (joinSep ' ' ts) := by
  intro c hc
  rcases mem_joinSep hc with ⟨t, ht, hct⟩ | rfl
  · exact isLowerAlnum_not_upper ((h t ht).2 c hct)
  · exact space_not_upper

theorem norm_community_noUpper (x : Str) : NoUpper (norm_community x) := by
  obtain ⟨ts, hts, heq⟩ := norm_community_canon x
  rw [heq]
  exact noUpper_joinSep hts

theorem norm_address_noUpper (a : Str) : NoUpper (norm_address a) := by
  obtain ⟨ts, hts, heq⟩ := norm_address_canon a
  rw [heq]
  exact noUpper_joinSep hts

theorem type_key_noUpper (t : Str) : NoUpper (type_key t) := by
  obtain ⟨ts, hts, heq⟩ := type_key_canon t
  rw [heq]
  exact noUpper_joinSep hts

theorem title_eq_noacr {s : Str} (h : NoUpper s) :
    title_case_smart s = title_case_noacr s := by
  unfold title_case_smart title_case_noacr
  refine congrArg (joinSep ' ') (List.map_congr_left ?_)
  intro p hp
  have hw : p.2 ∈ (splitChar ' ' (clean_spaces s)).filter
      (fun w => ¬ w.isEmpty) := List.snd_mem_of_mem_enum hp
  have hwn : NoUpper p.2 := by
    intro c hc
    have hmem := (mem_splitChar (List.mem_filter.1 hw).1 c hc).1
    rcases mem_clean_spaces hmem with hmem | rfl
    · exact h c hmem
    · exact space_not_upper
  have hany : p.2.any isUpperChar = false :=
    List.any_eq_false.2 (fun c hc => by simp [hwn c hc])
  unfold titleTok titleTokNoAcr
  by_cases hd : pyIsDigitStr p.2 = true
  · simp [hd]
  · have hd' : pyIsDigitStr p.2 = false := by simpa using hd
    simp [hd', hany]

/-!  ## Idempotence of community-key normalization  -/

theorem goodToks_notSpace_of_alnum {ts : List Str}
    (h : GoodToks isLowerAlnum ts) : GoodToks notSpace ts :=
  fun t ht => ⟨(h t ht).1, fun c hc => isLowerAlnum_notSpace ((h t ht).2 c hc)⟩

theorem norm_community_of_canon {ts : List Str}
    (hts : GoodToks isLowerAlnum ts) :
    norm_community (joinSep ' ' ts) = joinSep ' ' ts := by
  unfold norm_community
  rw [clean_spaces_joinSep (goodToks_notSpace_of_alnum hts)]
  rw [strip_accents_eq_self (fun c hc => by
    rcases mem_joinSep hc with ⟨t, ht, hct⟩ | rfl
    · exact Or.inl ((hts t ht).2 c hct)
    · exact Or.inr rfl)]
  rw [pyLower_eq_self (noUpper_joinSep hts)]
  rw [subRuns_joinSep (by decide) ts hts]
  exact clean_spaces_joinSep (goodToks_notSpace_of_alnum hts)

/-!  ## Title-casing retracts onto canonical keys  -/

theorem alnum_ne_space {c : Char} (h : isLowerAlnum c = true) : c ≠ ' ' := by
  intro hc
  subst hc
  exact absurd h (by decide)

theorem pyLower_joinSep :
    ∀ (ts : List Str), pyLower (joinSep ' ' ts) = joinSep ' ' (ts.map pyLower)
  | [] => rfl
  | [t] => rfl
  | t :: t' :: ts => by
    have ih := pyLower_joinSep (t' :: ts)
    show pyLower (t ++ ' ' :: joinSep ' ' (t' :: ts)) = _
    unfold pyLower at *
    rw [List.map_append, List.map_cons, pyLowerChar_space, ih]
    simp [joinSep_cons_cons]

theorem titleTok_retract {t : Str} (ht : t ≠ [])
    (hchars : ∀ c ∈ t, isLowerAlnum c = true) (i : Nat) :
    pyLower (titleTok i t) = t := by
  have hnu : NoUpper t := fun c hc => isLowerAlnum_not_upper (hchars c hc)
  unfold titleTok
  by_cases hd : pyIsDigitStr t = true
  · rw [if_pos hd]
    exact pyLower_eq_self hnu
  · rw [if_neg hd]
    have hany : t.any isUpperChar = false :=
      List.any_eq_false.2 (fun c hc => by simp [hnu c hc])
    have hacr : (t.length ≤ 3 && t == pyUpper t && t.any isUpperChar) = false := by
      rw [hany]
      simp
    rw [if_neg (by simp [hacr])]
    have hlow : pyLower t = t := pyLower_eq_self hnu
    rw [hlow]
    by_cases hsm : (decide (i ≠ 0) && decide (t ∈ smallWords)) = true
    · rw [if_pos hsm]
      exact hlow
    · rw [if_neg hsm]
      rcases hcase : t with _ | ⟨c, cs⟩
      · exact absurd hcase ht
      · show pyLower (pyUpperChar c :: cs) = c :: cs
        unfold pyLower
        rw [List.map_cons]
        have hc : isLowerAlnum c = true := hchars c (by simp [hcase])
        rw [pyLowerChar_pyUpperChar hc]
        have : NoUpper cs := fun d hd' => hnu d (by simp [hcase, hd'])
        have := pyLower_eq_self this
        unfold pyLower at this
        rw [this]

theorem title_retract {ts : List Str} (hts : GoodToks isLowerAlnum ts) :
    pyLower (title_case_smart (joinSep ' ' ts)) = joinSep ' ' ts := by
  rcases hcase : ts with _ | ⟨t0, rest⟩
  · rfl
  · rw [← hcase]
    have hne : ts ≠ [] := by simp [hcase]
    unfold title_case_smart
    rw [clean_spaces_joinSep (goodToks_notSpace_of_alnum hts)]
    rw [splitChar_joinSep ts hne
      (fun t ht c hc => alnum_ne_space ((hts t ht).2 c hc))]
    rw [List.filter_eq_self.2 (fun t ht => by
      have := (hts t ht).1
      cases t
      · exact absurd rfl this
      · rfl)]
    rw [pyLower_joinSep]
    have : (ts.enum.map (fun p => titleTok p.1 p.2)).map pyLower
        = ts.enum.map Prod.snd := by
      rw [List.map_map]
      refine List.map_congr_left ?_
      intro p hp
      have hmem : p.2 ∈ ts := List.snd_mem_of_mem_enum hp
      exact titleTok_retract (hts p.2 hmem).1 ((hts p.2 hmem).2) p.1
    rw [this, List.enum_map_snd]

theorem title_inj_on_canon {k1 k2 : Str}
    (h1 : ∃ ts, GoodToks isLowerAlnum ts ∧ k1 = joinSep ' ' ts)
    (h2 : ∃ ts, GoodToks isLowerAlnum ts ∧ k2 = joinSep ' ' ts)
    (heq : title_case_smart k1 = title_case_smart k2) : k1 = k2 := by
  obtain ⟨ts1, hts1, rfl⟩ := h1
  obtain ⟨ts2, hts2, rfl⟩ := h2
  rw [← title_retract hts1, ← title_retract hts2, heq]

/-!  ## `uniq_preserve` and `most_common` lemmas  -/

theorem mem_uniqAux :
    ∀ (l seen : List Str) (a : Str), a ∈ uniqAux seen l ↔ (a ∈ l ∧ a ∉ seen)
  | [], seen, a => by simp [uniqAux]
  | x :: xs, seen, a => by
    by_cases hx : x ∈ seen
    · rw [uniqAux, if_pos hx, mem_uniqAux xs seen a]
      constructor
      · exact fun ⟨h1, h2⟩ => ⟨List.mem_cons_of_mem _ h1, h2⟩
      · rintro ⟨h1, h2⟩
        rcases List.mem_cons.1 h1 with rfl | h1
        · exact absurd hx h2
        · exact ⟨h1, h2⟩
    · rw [uniqAux, if_neg hx]
      constructor
      · intro h
        rcases List.mem_cons.1 h with rfl | h
        · exact ⟨List.mem_cons_self _ _, hx⟩
        · have := (mem_uniqAux xs (x :: seen) a).1 h
          refine ⟨List.mem_cons_of_mem _ this.1, fun hs => this.2 ?_⟩
          exact List.mem_cons_of_mem _ hs
      · rintro ⟨h1, h2⟩
        rcases List.mem_cons.1 h1 with rfl | h1
        · exact List.mem_cons_self _ _
        · by_cases hax : a = x
          · subst hax
            exact List.mem_cons_self _ _
          · refine List.mem_cons_of_mem _ ((mem_uniqAux xs (x :: seen) a).2
              ⟨h1, fun hs => ?_⟩)
            rcases List.mem_cons.1 hs with h | h
            · exact hax h
            · exact h2 h

theorem uniqAux_split :
    ∀ (l seen pre post : List Str) (a : Str),
      uniqAux seen l = pre ++ a :: post →
      a ∉ seen ∧ ∃ l1 l2, l = l1 ++ a :: l2 ∧ a ∉ l1 ∧
        ∀ v ∈ l1, v ∈ seen ∨ v ∈ pre
  | [], seen, pre, post, a, h => by simp [uniqAux] at h
  | x :: xs, seen, pre, post, a, h => by
    by_cases hx : x ∈ seen
    · rw [uniqAux, if_pos hx] at h
      obtain ⟨hns, l1, l2, heq, hnl1, hsub⟩ := uniqAux_split xs seen pre post a h
      refine ⟨hns, x :: l1, l2, by simp [heq], ?_, ?_⟩
      · intro hmem
        rcases List.mem_cons.1 hmem with rfl | hmem
        · exact hns hx
        · exact hnl1 hmem
      · intro v hv
        rcases List.mem_cons.1 hv with rfl | hv
        · exact Or.inl hx
        · exact hsub v hv
    · rw [uniqAux, if_neg hx] at h
      rcases pre with _ | ⟨p0, pre'⟩
      · simp only [List.nil_append, List.cons.injEq] at h
        obtain ⟨rfl, _⟩ := h
        exact ⟨hx, [], xs, rfl, by simp, by simp⟩
      · simp only [List.cons_append, List.cons.injEq] at h
        obtain ⟨rfl, h⟩ := h
        obtain ⟨hns, l1, l2, heq, hnl1, hsub⟩ :=
          uniqAux_split xs (x :: seen) pre' post a h
        have hax : a ≠ x := fun hc => hns (hc ▸ List.mem_cons_self _ _)
        refine ⟨fun hs => hns (List.mem_cons_of_mem _ hs),
          x :: l1, l2, by simp [heq], ?_, ?_⟩
        · intro hmem
          rcases List.mem_cons.1 hmem with rfl | hmem
          · exact hax rfl
          · exact hnl1 hmem
        · intro v hv
          rcases List.mem_cons.1 hv with rfl | hv
          · exact Or.inr (List.mem_cons_self _ _)
          · rcases hsub v hv with hv' | hv'
            · rcases List.mem_cons.1 hv' with rfl | hv'
              · exact Or.inr (List.mem_cons_self _ _)
              · exact Or.inl hv'
            · exact Or.inr (List.mem_cons_of_mem _ hv')

theorem uniqAux_sublist :
    ∀ (l seen : List Str), (uniqAux seen l).Sublist l
  | [], _ => by simp [uniqAux]
  | x :: xs, seen => by
    by_cases hx : x ∈ seen
    · rw [uniqAux, if_pos hx]
      exact (uniqAux_sublist xs seen).cons x
    · rw [uniqAux, if_neg hx]
      exact (uniqAux_sublist xs (x :: seen)).cons₂ x

theorem uniqAux_nodup :
    ∀ (l seen : List Str), (uniqAux seen l).Nodup
  | [], _ => by simp [uniqAux]
  | x :: xs, seen => by
    by_cases hx : x ∈ seen
    · rw [uniqAux, if_pos hx]
      exact uniqAux_nodup xs seen
    · rw [uniqAux, if_neg hx]
      refine List.nodup_cons.2 ⟨fun hmem => ?_, uniqAux_nodup xs (x :: seen)⟩
      exact ((mem_uniqAux xs (x :: seen) x).1 hmem).2 (List.mem_cons_self _ _)

theorem uniq_preserve_firstDedup (l : List Str) :
    FirstDedup l (uniq_preserve l) := by
  refine ⟨uniqAux_sublist l [], uniqAux_nodup l [], ?_, ?_⟩
  · intro a
    rw [show uniq_preserve l = uniqAux [] l from rfl, mem_uniqAux]
    simp
  · intro pre a post h
    obtain ⟨_, l1, l2, heq, hnl1, hsub⟩ := uniqAux_split l [] pre post a h
    refine ⟨l1, l2, heq, hnl1, fun v hv => ?_⟩
    rcases hsub v hv with hv' | hv'
    · simp at hv'
    · exact hv'

theorem pickMax_cons (cnt : Str → Nat) (b x : Str) (xs : List Str) :
    pickMax cnt b (x :: xs)
      = if cnt b < cnt x then pickMax cnt x xs else pickMax cnt b xs := rfl

theorem pickMax_cons_lt (cnt : Str → Nat) {b x : Str} (xs : List Str)
    (h : cnt b < cnt x) : pickMax cnt b (x :: xs) = pickMax cnt x xs := by
  rw [pickMax_cons, if_pos h]

theorem pickMax_cons_ge (cnt : Str → Nat) {b x : Str} (xs : List Str)
    (h : ¬ cnt b < cnt x) : pickMax cnt b (x :: xs) = pickMax cnt b xs := by
  rw [pickMax_cons, if_neg h]

theorem pickMax_mem (cnt : Str → Nat) :
    ∀ (xs : List Str) (b : Str), pickMax cnt b xs ∈ b :: xs
  | [], b => List.mem_singleton.2 rfl
  | x :: xs, b => by
    by_cases h : cnt b < cnt x
    · rw [pickMax_cons_lt cnt xs h]
      exact List.mem_cons_of_mem _ (pickMax_mem cnt xs x)
    · rw [pickMax_cons_ge cnt xs h]
      rcases List.mem_cons.1 (pickMax_mem cnt xs b) with heq | hmem
      · rw [heq]
        exact List.mem_cons_self _ _
      · exact List.mem_cons_of_mem _ (List.mem_cons_of_mem _ hmem)

theorem pickMax_ge (cnt : Str → Nat) :
    ∀ (xs : List Str) (b y : Str), y ∈ b :: xs → cnt y ≤ cnt (pickMax cnt b xs)
  | [], b, y, hy => by
    have heq : y = b := by simpa using hy
    subst heq
    exact Nat.le_refl _
  | x :: xs, b, y, hy => by
    by_cases h : cnt b < cnt x
    · rw [pickMax_cons_lt cnt xs h]
      rcases List.mem_cons.1 hy with heq | hy2
      · rw [heq]
        exact Nat.le_trans (Nat.le_of_lt h)
          (pickMax_ge cnt xs x x (List.mem_cons_self _ _))
      · exact pickMax_ge cnt xs x y hy2
    · rw [pickMax_cons_ge cnt xs h]
      rcases List.mem_cons.1 hy with heq | hy2
      · rw [heq]
        exact pickMax_ge cnt xs b b (List.mem_cons_self _ _)
      · rcases List.mem_cons.1 hy2 with heq | hy3
        · rw [heq]
          exact Nat.le_trans (Nat.le_of_not_lt h)
            (pickMax_ge cnt xs b b (List.mem_cons_self _ _))
        · exact pickMax_ge cnt xs b y (List.mem_cons_of_mem _ hy3)

theorem pickMax_split (cnt : Str → Nat) :
    ∀ (xs : List Str) (b : Str),
      ∃ pre post, b :: xs = pre ++ pickMax cnt b xs :: post ∧
        ∀ y ∈ pre, cnt y < cnt (pickMax cnt b xs)
  | [], b => ⟨[], [], rfl, by simp⟩
  | x :: xs, b => by
    by_cases h : cnt b < cnt x
    · rw [pickMax_cons_lt cnt xs h]
      obtain ⟨pre, post, heq, hlt⟩ := pickMax_split cnt xs x
      refine ⟨b :: pre, post, by rw [List.cons_append, ← heq], ?_⟩
      intro y hy
      rcases List.mem_cons.1 hy with hyb | hy2
      · rw [hyb]
        exact Nat.lt_of_lt_of_le h
          (pickMax_ge cnt xs x x (List.mem_cons_self _ _))
      · exact hlt y hy2
    · rw [pickMax_cons_ge cnt xs h]
      obtain ⟨pre, post, heq, hlt⟩ := pickMax_split cnt xs b
      rcases pre with _ | ⟨p0, pre'⟩
      · simp only [List.nil_append, List.cons.injEq] at heq
        refine ⟨[], x :: xs, ?_, by simp⟩
        rw [List.nil_append, ← heq.1]
      · simp only [List.cons_append, List.cons.injEq] at heq
        obtain ⟨hbp, heq⟩ := heq
        refine ⟨b :: x :: pre', post, ?_, ?_⟩
        · rw [List.cons_append, List.cons_append, ← heq]
        · intro y hy
          have hb : cnt b < cnt (pickMax cnt b xs) := by
            rw [hbp] at hlt ⊢
            exact hlt p0 (List.mem_cons_self _ _)
          rcases List.mem_cons.1 hy with hyb | hy2
          · rw [hyb]
            exact hb
          · rcases List.mem_cons.1 hy2 with hyx | hy3
            · rw [hyx]
              exact Nat.lt_of_le_of_lt (Nat.le_of_not_lt h) hb
            · exact hlt y (List.mem_cons_of_mem _ hy3)

theorem mem_filter_nonempty {vs : List Str} {v : Str} :
    v ∈ vs.filter (fun v => ¬ v.isEmpty) ↔ v ∈ vs ∧ v ≠ [] := by
  simp [List.mem_filter, List.isEmpty_iff]

theorem count_filter_nonempty {v : Str} (vs : List Str) (hv : v ≠ []) :
    (vs.filter (fun v => ¬ v.isEmpty)).count v = vs.count v := by
  apply List.count_filter
  simp [List.isEmpty_iff, hv]

theorem most_common_eq (vs : List Str) :
    most_common vs =
      (match uniq_preserve (vs.filter (fun v => ¬ v.isEmpty)) with
        | [] => []
        | d :: ds =>
          pickMax (fun v => (vs.filter (fun v => ¬ v.isEmpty)).count v) d ds) :=
  rfl

theorem most_common_spec (vs : List Str) :
    ((∀ v ∈ vs, v = []) → most_common vs = []) ∧
    ((∃ v ∈ vs, v ≠ []) → majority_pick (most_common vs) vs) := by
  constructor
  · intro h
    have hnil : vs.filter (fun v => ¬ v.isEmpty) = [] := by
      rw [List.filter_eq_nil_iff]
      intro a ha
      simp [List.isEmpty_iff, h a ha]
    rw [most_common_eq, hnil]
    rfl
  · rintro ⟨v0, hv0, hv0ne⟩
    have hv0f : v0 ∈ vs.filter (fun v => ¬ v.isEmpty) :=
      mem_filter_nonempty.2 ⟨hv0, hv0ne⟩
    cases hcase : uniq_preserve (vs.filter (fun v => ¬ v.isEmpty)) with
    | nil =>
      exfalso
      have hmem : v0 ∈ uniq_preserve (vs.filter (fun v => ¬ v.isEmpty)) :=
        (mem_uniqAux _ [] v0).2 ⟨hv0f, by simp⟩
      rw [hcase] at hmem
      simp at hmem
    | cons d ds =>
      have hmc : most_common vs =
          pickMax (fun v => (vs.filter (fun v => ¬ v.isEmpty)).count v) d ds := by
        rw [most_common_eq, hcase]
      have hrmem_uniq :
          pickMax (fun v => (vs.filter (fun v => ¬ v.isEmpty)).count v) d ds
            ∈ d :: ds := pickMax_mem _ ds d
      have hrvsf :
          pickMax (fun v => (vs.filter (fun v => ¬ v.isEmpty)).count v) d ds
            ∈ vs.filter (fun v => ¬ v.isEmpty) := by
        have hx : pickMax (fun v => (vs.filter (fun v => ¬ v.isEmpty)).count v)
            d ds ∈ uniq_preserve (vs.filter (fun v => ¬ v.isEmpty)) := by
          rw [hcase]
          exact hrmem_uniq
        exact ((mem_uniqAux _ [] _).1 hx).1
      have hrvs_ne := mem_filter_nonempty.1 hrvsf
      rw [hmc]
      refine ⟨hrvs_ne.2, hrvs_ne.1, ?_, ?_⟩
      · intro v hv hvne
        have hvf : v ∈ vs.filter (fun v => ¬ v.isEmpty) :=
          mem_filter_nonempty.2 ⟨hv, hvne⟩
        have hvu : v ∈ d :: ds := by
          have hx : v ∈ uniq_preserve (vs.filter (fun v => ¬ v.isEmpty)) :=
            (mem_uniqAux _ [] v).2 ⟨hvf, by simp⟩
          rwa [hcase] at hx
        have hle := pickMax_ge
          (fun v => (vs.filter (fun v => ¬ v.isEmpty)).count v) ds d v hvu
        calc vs.count v
            = (vs.filter (fun v => ¬ v.isEmpty)).count v :=
              (count_filter_nonempty vs hvne).symm
          _ ≤ (vs.filter (fun v => ¬ v.isEmpty)).count
                (pickMax (fun v => (vs.filter (fun v => ¬ v.isEmpty)).count v)
                  d ds) := hle
          _ = vs.count
                (pickMax (fun v => (vs.filter (fun v => ¬ v.isEmpty)).count v)
                  d ds) := count_filter_nonempty vs hrvs_ne.2
      · obtain ⟨pre, post, hsplit, hlt⟩ := pickMax_split
          (fun v => (vs.filter (fun v => ¬ v.isEmpty)).count v) ds d
        have huniq : uniqAux [] (vs.filter (fun v => ¬ v.isEmpty)) =
            pre ++ pickMax (fun v => (vs.filter (fun v => ¬ v.isEmpty)).count v)
              d ds :: post := by
          show uniq_preserve _ = _
          rw [hcase]
          exact hsplit
        obtain ⟨_, l1, l2, heql, hnl1, hsubpre⟩ :=
          uniqAux_split (vs.filter (fun v => ¬ v.isEmpty)) [] pre post _ huniq
        refine ⟨l1, l2, heql, ?_⟩
        intro v hv
        have hvf : v ∈ vs.filter (fun v => ¬ v.isEmpty) := by
          rw [heql]
          exact List.mem_append_left _ hv
        have hvne : v ≠ [] := (mem_filter_nonempty.1 hvf).2
        have hvpre : v ∈ pre := by
          rcases hsubpre v hv with h | h
          · simp at h
          · exact h
        have hcnt := hlt v hvpre
        calc vs.count v
            = (vs.filter (fun v => ¬ v.isEmpty)).count v :=
              (count_filter_nonempty vs hvne).symm
          _ < (vs.filter (fun v => ¬ v.isEmpty)).count
                (pickMax (fun v => (vs.filter (fun v => ¬ v.isEmpty)).count v)
                  d ds) := hcnt
          _ = vs.count
                (pickMax (fun v => (vs.filter (fun v => ¬ v.isEmpty)).count v)
                  d ds) := count_filter_nonempty vs hrvs_ne.2

/-!  ## `extract_gate_tokens` returns exactly the maximal digit runs  -/

theorem glueRuns_cons (g0 r g : Str) (ps : List (Str × Str)) :
    glueRuns g0 ((r, g) :: ps) = g0 ++ r ++ glueRuns g ps := rfl

theorem glueRuns_cons_gap (c : Char) (g0 : Str) :
    ∀ (ps : List (Str × Str)), glueRuns (c :: g0) ps = c :: glueRuns g0 ps
  | [] => rfl
  | (r, g) :: ps => by simp [glueRuns_cons]

theorem dropWhile_head_false (p : Char → Bool) :
    ∀ (l : Str), l.dropWhile p = [] ∨
      ∃ d ds, l.dropWhile p = d :: ds ∧ p d = false
  | [] => Or.inl rfl
  | c :: cs => by
    by_cases hc : p c = true
    · rw [List.dropWhile_cons, if_pos hc]
      exact dropWhile_head_false p cs
    · have hc' : p c = false := by simpa using hc
      rw [List.dropWhile_cons, if_neg (by simp [hc'])]
      exact Or.inr ⟨c, cs, rfl, hc'⟩

theorem maxRuns_runsSpec_aux (p : Char → Bool) :
    ∀ (n : Nat) (s : Str), s.length ≤ n → RunsSpecP p s (maxRuns p s)
  | _, [], _ => ⟨[], [], rfl, rfl, by simp, by simp, by simp⟩
  | 0, c :: cs, h => absurd h (by simp)
  | n + 1, c :: cs, h => by
    have hlen : cs.length ≤ n := by
      simpa using Nat.le_of_succ_le_succ h
    by_cases hc : p c = true
    · rw [maxRuns_cons_pos cs hc]
      have hrest_len : (cs.dropWhile p).length ≤ n :=
        Nat.le_trans (List.dropWhile_sublist p).length_le hlen
      obtain ⟨g0, ps, hmap, hglue, hg0, hps, hinner⟩ :=
        maxRuns_runsSpec_aux p n (cs.dropWhile p) hrest_len
      refine ⟨[], (c :: cs.takeWhile p, g0) :: ps, by simp [hmap], ?_,
        by simp, ?_, ?_⟩
      · rw [glueRuns_cons, List.nil_append, ← hglue]
        rw [List.cons_append, List.takeWhile_append_dropWhile]
      · intro q hq
        rcases List.mem_cons.1 hq with heq | hq
        · rw [heq]
          refine ⟨by simp, ?_, hg0⟩
          intro d hd
          rcases List.mem_cons.1 hd with rfl | hd
          · exact hc
          · exact List.mem_takeWhile_imp hd
        · exact hps q hq
      · rcases hps0 : ps with _ | ⟨p1, ps'⟩
        · simp
        · rw [List.dropLast_cons₂]
          intro q hq
          rcases List.mem_cons.1 hq with heq | hq
          · rw [heq]
            show g0 ≠ []
            intro hg0nil
            subst hg0nil
            rw [hps0] at hglue
            have hp1 := hps p1 (by rw [hps0]; exact List.mem_cons_self _ _)
            rcases hp1run : p1 with ⟨r1, g1⟩
            rcases hr1 : r1 with _ | ⟨a, t⟩
            · rw [hp1run, hr1] at hp1
              exact absurd rfl hp1.1
            · have hpa : p a = true := by
                rw [hp1run, hr1] at hp1
                exact hp1.2.1 a (List.mem_cons_self _ _)
              have : cs.dropWhile p = a :: (t ++ glueRuns g1 ps') := by
                rw [hglue, hp1run, hr1, glueRuns_cons]
                simp
              rcases dropWhile_head_false p cs with hnil | ⟨d, ds, heq', hd⟩
              · rw [hnil] at this
                exact absurd this (by simp)
              · rw [heq'] at this
                have : d = a := (List.cons.injEq _ _ _ _ ▸ this).1
                rw [this] at hd
                exact absurd hpa (by simp [hd])
          · rw [hps0] at hinner
            exact hinner q hq
    · have hc' : p c = false := by simpa using hc
      rw [maxRuns_cons_neg cs hc']
      obtain ⟨g0, ps, hmap, hglue, hg0, hps, hinner⟩ :=
        maxRuns_runsSpec_aux p n cs hlen
      refine ⟨c :: g0, ps, hmap, ?_, ?_, hps, hinner⟩
      · rw [glueRuns_cons_gap, ← hglue]
      · intro d hd
        rcases List.mem_cons.1 hd with rfl | hd
        · exact hc'
        · exact hg0 d hd

theorem maxRuns_runsSpec (p : Char → Bool) (s : Str) :
    RunsSpecP p s (maxRuns p s) :=
  maxRuns_runsSpec_aux p s.length s (Nat.le_refl _)

/-!  ## Bucket-level characterization of the community merge  -/

theorem filter_ne_nil_of_any {m : List (Str × List PyDict)} {k : Str}
    (h : m.any (fun p => p.1 == k) = true) :
    m.filter (fun p => p.1 == k) ≠ [] := by
  obtain ⟨p, hp, hpk⟩ := List.any_eq_true.1 h
  intro hnil
  have : p ∈ m.filter (fun p => p.1 == k) := List.mem_filter.2 ⟨hp, hpk⟩
  rw [hnil] at this
  simp at this

theorem any_eq_false_of_filter_nil {m : List (Str × List PyDict)} {k : Str}
    (h : m.filter (fun p => p.1 == k) = []) :
    m.any (fun p => p.1 == k) = false := by
  rw [List.any_eq_false]
  intro p hp hpk
  have : p ∈ m.filter (fun p => p.1 == k) := List.mem_filter.2 ⟨hp, hpk⟩
  rw [h] at this
  simp at this

theorem extendAt_filter_same {m : List (Str × List PyDict)} {k : Str}
    {v0 : List PyDict} (h : m.filter (fun p => p.1 == k) = [(k, v0)])
    (vs : List PyDict) :
    (extendAt m k vs).filter (fun p => p.1 == k) = [(k, v0 ++ vs)] := by
  have hany : m.any (fun p => p.1 == k) = true := by
    rcases hcase : m.any (fun p => p.1 == k) with _ | _
    · exfalso
      have hnil : m.filter (fun p => p.1 == k) = [] := by
        rw [List.filter_eq_nil_iff]
        intro p hp
        have := List.any_eq_false.1 hcase p hp
        simpa using this
      rw [hnil] at h
      simp at h
    · rfl
  unfold extendAt
  rw [if_pos hany]
  rw [List.filter_map
    (fun p : Str × List PyDict => if p.1 == k then (p.1, p.2 ++ vs) else p) m]
  rw [List.filter_congr (q := fun p => p.1 == k) ?hcong]
  case hcong =>
    intro p _
    by_cases hpk : (p.1 == k) = true
    · simp [Function.comp, hpk]
    · have hpk' : (p.1 == k) = false := by simpa using hpk
      simp [Function.comp, hpk']
  rw [h]
  simp

theorem extendAt_filter_other {m : List (Str × List PyDict)} {k k' : Str}
    (hne : k' ≠ k) (vs : List PyDict) :
    (extendAt m k' vs).filter (fun p => p.1 == k)
      = m.filter (fun p => p.1 == k) := by
  unfold extendAt
  by_cases hany : m.any (fun p => p.1 == k') = true
  · rw [if_pos hany]
    rw [List.filter_map
      (fun p : Str × List PyDict => if p.1 == k' then (p.1, p.2 ++ vs) else p) m]
    rw [List.filter_congr (q := fun p => p.1 == k) ?hcong2]
    case hcong2 =>
      intro p _
      by_cases hpk : (p.1 == k') = true
      · simp [Function.comp, hpk]
      · have hpk' : (p.1 == k') = false := by simpa using hpk
        simp [Function.comp, hpk']
    have hid : (m.filter (fun p => p.1 == k)).map
        (fun p => if p.1 == k' then (p.1, p.2 ++ vs) else p)
        = (m.filter (fun p => p.1 == k)).map id := by
      refine List.map_congr_left ?_
      intro a ha
      have hak : (a.1 == k) = true := (List.mem_filter.1 ha).2
      have hak' : (a.1 == k') = false := by
        have : a.1 = k := by simpa using hak
        simp [this]
        exact fun hc => hne hc.symm
      simp [hak']
    rw [hid, List.map_id]
  · rw [if_neg hany]
    rw [List.filter_append]
    have hsingle : ([(k', vs)].filter (fun p => p.1 == k)) = [] := by
      simp only [List.filter_cons]
      have hne' : ((k', vs).1 == k) = false := by simpa using hne
      rw [hne']
      simp
    rw [hsingle]
    simp

theorem contribs_cons_list_pos {c : Str} {xs : List PyVal} {kvs : PyDict}
    {k : Str} (h : norm_community c = k) :
    contribs ((c, .list xs) :: kvs) k
      = xs.filterMap asDict :: contribs kvs k := by
  simp [contribs, List.filterMap_cons, h]

theorem contribs_cons_list_neg {c : Str} {xs : List PyVal} {kvs : PyDict}
    {k : Str} (h : ¬ norm_community c = k) :
    contribs ((c, .list xs) :: kvs) k = contribs kvs k := by
  simp [contribs, List.filterMap_cons, h]

theorem contribs_cons_other {c : Str} {v : PyVal} {kvs : PyDict} {k : Str}
    (h : ∀ xs, v ≠ .list xs) :
    contribs ((c, v) :: kvs) k = contribs kvs k := by
  cases v with
  | list xs => exact absurd rfl (h xs)
  | str s => simp [contribs, List.filterMap_cons]
  | int n => simp [contribs, List.filterMap_cons]
  | bool b => simp [contribs, List.filterMap_cons]
  | pynone => simp [contribs, List.filterMap_cons]
  | dict kvs' => simp [contribs, List.filterMap_cons]

theorem bucketStep_list (bkts : List (Str × List PyDict)) (c : Str)
    (xs : List PyVal) :
    bucketStep bkts (c, .list xs)
      = extendAt bkts (norm_community c) (xs.filterMap asDict) := rfl

theorem bucketStep_other {v : PyVal} (bkts : List (Str × List PyDict))
    (c : Str) (h : ∀ xs, v ≠ .list xs) : bucketStep bkts (c, v) = bkts := by
  cases v with
  | list xs => exact absurd rfl (h xs)
  | str s => rfl
  | int n => rfl
  | bool b => rfl
  | pynone => rfl
  | dict kvs' => rfl

theorem foldl_buckets_some :
    ∀ (kvs : PyDict) (acc : List (Str × List PyDict)) (k : Str)
      (v0 : List PyDict),
      acc.filter (fun p => p.1 == k) = [(k, v0)] →
      (kvs.foldl bucketStep acc).filter (fun p => p.1 == k)
        = [(k, v0 ++ (contribs kvs k).flatten)]
  | [], acc, k, v0, h => by
    simpa [contribs] using h
  | (c, v) :: kvs, acc, k, v0, h => by
    rw [List.foldl_cons]
    cases v with
    | list xs =>
      by_cases hk : norm_community c = k
      · rw [bucketStep_list, hk]
        have hstep := extendAt_filter_same h (xs.filterMap asDict)
        have := foldl_buckets_some kvs _ k (v0 ++ xs.filterMap asDict) hstep
        rw [this, contribs_cons_list_pos hk]
        simp [List.append_assoc]
      · rw [bucketStep_list]
        have hstep := extendAt_filter_other (k := k)
          (m := acc) hk (xs.filterMap asDict)
        rw [contribs_cons_list_neg hk]
        exact foldl_buckets_some kvs _ k v0 (hstep.trans h)
    | str s =>
      rw [bucketStep_other acc c (by intro xs h'; cases h'),
        contribs_cons_other (by intro xs h'; cases h')]
      exact foldl_buckets_some kvs acc k v0 h
    | int n =>
      rw [bucketStep_other acc c (by intro xs h'; cases h'),
        contribs_cons_other (by intro xs h'; cases h')]
      exact foldl_buckets_some kvs acc k v0 h
    | bool b =>
      rw [bucketStep_other acc c (by intro xs h'; cases h'),
        contribs_cons_other (by intro xs h'; cases h')]
      exact foldl_buckets_some kvs acc k v0 h
    | pynone =>
      rw [bucketStep_other acc c (by intro xs h'; cases h'),
        contribs_cons_other (by intro xs h'; cases h')]
      exact foldl_buckets_some kvs acc k v0 h
    | dict kvs' =>
      rw [bucketStep_other acc c (by intro xs h'; cases h'),
        contribs_cons_other (by intro xs h'; cases h')]
      exact foldl_buckets_some kvs acc k v0 h

theorem foldl_buckets_none :
    ∀ (kvs : PyDict) (acc : List (Str × List PyDict)) (k : Str),
      acc.filter (fun p => p.1 == k) = [] →
      (kvs.foldl bucketStep acc).filter (fun p => p.1 == k)
        = if (contribs kvs k).isEmpty then []
          else [(k, (contribs kvs k).flatten)]
  | [], acc, k, h => by
    rw [List.foldl_nil]
    have hc : contribs ([] : PyDict) k = [] := rfl
    rw [hc]
    exact h
  | (c, v) :: kvs, acc, k, h => by
    rw [List.foldl_cons]
    cases v with
    | list xs =>
      by_cases hk : norm_community c = k
      · rw [bucketStep_list, hk]
        have hany : acc.any (fun p => p.1 == k) = false :=
          any_eq_false_of_filter_nil h
        have hext : extendAt acc k (xs.filterMap asDict)
            = acc ++ [(k, xs.filterMap asDict)] := by
          unfold extendAt
          rw [if_neg (by simp [hany])]
        have hfil : (extendAt acc k (xs.filterMap asDict)).filter
            (fun p => p.1 == k) = [(k, xs.filterMap asDict)] := by
          rw [hext, List.filter_append, h]
          simp
        have := foldl_buckets_some kvs _ k (xs.filterMap asDict) hfil
        rw [this, contribs_cons_list_pos hk]
        simp
      · rw [bucketStep_list]
        have hstep := extendAt_filter_other (k := k)
          (m := acc) hk (xs.filterMap asDict)
        rw [contribs_cons_list_neg hk]
        exact foldl_buckets_none kvs _ k (hstep.trans h)
    | str s =>
      rw [bucketStep_other acc c (by intro xs h'; cases h'),
        contribs_cons_other (by intro xs h'; cases h')]
      exact foldl_buckets_none kvs acc k h
    | int n =>
      rw [bucketStep_other acc c (by intro xs h'; cases h'),
        contribs_cons_other (by intro xs h'; cases h')]
      exact foldl_buckets_none kvs acc k h
    | bool b =>
      rw [bucketStep_other acc c (by intro xs h'; cases h'),
        contribs_cons_other (by intro xs h'; cases h')]
      exact foldl_buckets_none kvs acc k h
    | pynone =>
      rw [bucketStep_other acc c (by intro xs h'; cases h'),
        contribs_cons_other (by intro xs h'; cases h')]
      exact foldl_buckets_none kvs acc k h
    | dict kvs' =>
      rw [bucketStep_other acc c (by intro xs h'; cases h'),
        contribs_cons_other (by intro xs h'; cases h')]
      exact foldl_buckets_none kvs acc k h

theorem buildBuckets_filter (kvs : PyDict) (k : Str) :
    (buildBuckets kvs).filter (fun p => p.1 == k)
      = if (contribs kvs k).isEmpty then []
        else [(k, (contribs kvs k).flatten)] :=
  foldl_buckets_none kvs [] k rfl

theorem nodup_keys_inj {α β : Type} :
    ∀ (m : List (α × β)), (m.map Prod.fst).Nodup →
      ∀ p ∈ m, ∀ q ∈ m, p.1 = q.1 → p = q
  | [], _, p, hp, _, _, _ => by simp at hp
  | a :: m, hnd, p, hp, q, hq, heq => by
    rw [List.map_cons, List.nodup_cons] at hnd
    rcases List.mem_cons.1 hp with rfl | hp <;>
      rcases List.mem_cons.1 hq with h2 | h2
    · rw [h2]
    · exact absurd (heq ▸ List.mem_map_of_mem Prod.fst h2) hnd.1
    · exfalso
      apply hnd.1
      have hmm : p.1 ∈ List.map Prod.fst m := List.mem_map_of_mem Prod.fst hp
      rw [heq, h2] at hmm
      exact hmm
    · exact nodup_keys_inj m hnd.2 p hp q h2 heq

theorem foldl_buckets_keys :
    ∀ (kvs : PyDict) (acc : List (Str × List PyDict)),
      (acc.map Prod.fst).Nodup →
      (∀ q ∈ acc, ∃ x, q.1 = norm_community x) →
      ((kvs.foldl bucketStep acc).map Prod.fst).Nodup ∧
      (∀ q ∈ kvs.foldl bucketStep acc, ∃ x, q.1 = norm_community x)
  | [], acc, hnd, hcanon => ⟨hnd, hcanon⟩
  | (c, v) :: kvs, acc, hnd, hcanon => by
    rw [List.foldl_cons]
    cases v with
    | list xs =>
      rw [bucketStep_list]
      apply foldl_buckets_keys kvs
      · unfold extendAt
        by_cases hany : acc.any (fun p => p.1 == norm_community c) = true
        · rw [if_pos hany]
          have : (acc.map (fun p =>
              if p.1 == norm_community c then (p.1, p.2 ++ xs.filterMap asDict)
              else p)).map Prod.fst = acc.map Prod.fst := by
            rw [List.map_map]
            refine List.map_congr_left ?_
            intro p _
            by_cases hpk : (p.1 == norm_community c) = true
            · simp [Function.comp, hpk]
            · have : (p.1 == norm_community c) = false := by simpa using hpk
              simp [Function.comp, this]
          rw [this]
          exact hnd
        · rw [if_neg hany]
          rw [List.map_append]
          rw [List.nodup_append]
          refine ⟨hnd, by simp, ?_⟩
          intro a ha hb
          have hb' : a = norm_community c := by simpa using hb
          subst hb'
          rcases List.mem_map.1 ha with ⟨p, hp, hpk⟩
          have hany' : acc.any (fun p => p.1 == norm_community c) = false := by
            rw [← Bool.not_eq_true]
            exact hany
          have := List.any_eq_false.1 hany' p hp
          exact this (by simp [hpk])
      · intro q hq
        unfold extendAt at hq
        by_cases hany : acc.any (fun p => p.1 == norm_community c) = true
        · rw [if_pos hany] at hq
          rcases List.mem_map.1 hq with ⟨p, hp, rfl⟩
          by_cases hpk : (p.1 == norm_community c) = true
          · rw [if_pos hpk]
            exact hcanon p hp
          · rw [if_neg hpk]
            exact hcanon p hp
        · rw [if_neg hany] at hq
          rcases List.mem_append.1 hq with hq | hq
          · exact hcanon q hq
          · have : q = (norm_community c, xs.filterMap asDict) := by
              simpa using hq
            rw [this]
            exact ⟨c, rfl⟩
    | str s =>
      rw [bucketStep_other acc c (by intro xs h'; cases h')]
      exact foldl_buckets_keys kvs acc hnd hcanon
    | int n =>
      rw [bucketStep_other acc c (by intro xs h'; cases h')]
      exact foldl_buckets_keys kvs acc hnd hcanon
    | bool b =>
      rw [bucketStep_other acc c (by intro xs h'; cases h')]
      exact foldl_buckets_keys kvs acc hnd hcanon
    | pynone =>
      rw [bucketStep_other acc c (by intro xs h'; cases h')]
      exact foldl_buckets_keys kvs acc hnd hcanon
    | dict kvs' =>
      rw [bucketStep_other acc c (by intro xs h'; cases h')]
      exact foldl_buckets_keys kvs acc hnd hcanon

theorem dictSet_append {m : List (Str × List CleanEntry)} {k : Str}
    {v : List CleanEntry} (h : m.any (fun p => p.1 == k) = false) :
    dictSet m k v = m ++ [(k, v)] := by
  unfold dictSet
  rw [if_neg (by simp [h])]

theorem foldl_out_map :
    ∀ (bkts : List (Str × List PyDict)) (acc : List (Str × List CleanEntry)),
      (∀ p ∈ bkts, ∀ q ∈ acc, q.1 ≠ title_case_smart p.1) →
      ((bkts.map (fun p => title_case_smart p.1)).Nodup) →
      bkts.foldl outStep acc
        = acc ++ bkts.map (fun p =>
            (title_case_smart p.1,
             (buildByAddr p.2).map (fun q => aggEntry q.1 q.2)))
  | [], acc, _, _ => by simp
  | b :: bkts, acc, hacc, hnd => by
    rw [List.foldl_cons]
    rw [List.map_cons, List.nodup_cons] at hnd
    have hany : acc.any (fun p => p.1 == title_case_smart b.1) = false := by
      rw [List.any_eq_false]
      intro q hq hc
      exact hacc b (List.mem_cons_self _ _) q hq (by simpa using hc)
    have hstep : outStep acc b = acc ++
        [(title_case_smart b.1,
          (buildByAddr b.2).map (fun q => aggEntry q.1 q.2))] := by
      unfold outStep
      exact dictSet_append hany
    rw [hstep]
    have hcnew : ∀ p ∈ bkts, ∀ q ∈ acc ++
        [(title_case_smart b.1,
          (buildByAddr b.2).map (fun q => aggEntry q.1 q.2))],
        q.1 ≠ title_case_smart p.1 := by
      intro p hp q hq
      rcases List.mem_append.1 hq with hq | hq
      · exact hacc p (List.mem_cons_of_mem _ hp) q hq
      · have hq' : q = (title_case_smart b.1,
            (buildByAddr b.2).map (fun q => aggEntry q.1 q.2)) := by
          simpa using hq
        rw [hq']
        intro hc
        apply hnd.1
        have hc' : title_case_smart b.1 = title_case_smart p.1 := hc
        rw [hc']
        exact List.mem_map_of_mem (fun p => title_case_smart p.1) hp
    rw [foldl_out_map bkts _ hcnew hnd.2]
    simp

theorem processBuckets_eq {bkts : List (Str × List PyDict)}
    (h : (bkts.map (fun p => title_case_smart p.1)).Nodup) :
    processBuckets bkts = bkts.map (fun p =>
      (title_case_smart p.1,
       (buildByAddr p.2).map (fun q => aggEntry q.1 q.2))) := by
  unfold processBuckets
  rw [foldl_out_map bkts [] (by simp) h]
  simp

theorem contribs_key_canon {kvs : PyDict} {k : Str}
    (h : contribs kvs k ≠ []) : ∃ x, k = norm_community x := by
  unfold contribs at h
  have : ¬ ∀ a ∈ kvs, (fun p : Str × PyVal =>
      match p.2 with
      | .list xs =>
        if norm_community p.1 = k then some (xs.filterMap asDict)
        else Option.none
      | _ => Option.none) a = Option.none := by
    intro hall
    exact h (List.filterMap_eq_nil_iff.2 hall)
  push_neg at this
  obtain ⟨a, _, ha⟩ := this
  rcases a with ⟨c, v⟩
  cases v with
  | list xs =>
    by_cases hk : norm_community c = k
    · exact ⟨c, hk.symm⟩
    · simp only [hk, if_false] at ha
      exact absurd rfl ha
  | str s => exact absurd rfl ha
  | int n => exact absurd rfl ha
  | bool b => exact absurd rfl ha
  | pynone => exact absurd rfl ha
  | dict kvs' => exact absurd rfl ha

theorem clean_groups_filter (kvs : PyDict) (k : Str)
    (h : contribs kvs k ≠ []) :
    (processBuckets (buildBuckets kvs)).filter
      (fun p => p.1 == title_case_smart k)
    = [(title_case_smart k,
        (buildByAddr (contribs kvs k).flatten).map
          (fun q => aggEntry q.1 q.2))] := by
  obtain ⟨hnd, hcanon⟩ := foldl_buckets_keys kvs [] (by simp) (by simp)
  have hinj : ∀ p ∈ buildBuckets kvs, ∀ q ∈ buildBuckets kvs,
      title_case_smart p.1 = title_case_smart q.1 → p = q := by
    intro p hp q hq heq
    obtain ⟨x, hx⟩ := hcanon p hp
    obtain ⟨y, hy⟩ := hcanon q hq
    have hkey : p.1 = q.1 := by
      refine title_inj_on_canon ?_ ?_ heq
      · rw [hx]
        exact norm_community_canon x
      · rw [hy]
        exact norm_community_canon y
    exact nodup_keys_inj _ hnd p hp q hq hkey
  have hnodup_bkts : (buildBuckets kvs).Nodup := List.Nodup.of_map _ hnd
  have hdisp : ((buildBuckets kvs).map
      (fun p => title_case_smart p.1)).Nodup :=
    List.Nodup.map_on hinj hnodup_bkts
  rw [processBuckets_eq hdisp]
  rw [List.filter_map]
  obtain ⟨z, hz⟩ := contribs_key_canon h
  have hcong : ∀ p ∈ buildBuckets kvs,
      ((fun q : Str × List CleanEntry => q.1 == title_case_smart k) ∘
        (fun p : Str × List PyDict =>
          (title_case_smart p.1,
           (buildByAddr p.2).map (fun q => aggEntry q.1 q.2)))) p
        = (fun p : Str × List PyDict => p.1 == k) p := by
    intro p hp
    simp only [Function.comp_apply]
    by_cases hpk : p.1 = k
    · simp [hpk]
    · have hne : title_case_smart p.1 ≠ title_case_smart k := by
        intro hc
        apply hpk
        obtain ⟨x, hx⟩ := hcanon p hp
        refine title_inj_on_canon ?_ ?_ hc
        · rw [hx]
          exact norm_community_canon x
        · rw [hz]
          exact norm_community_canon z
      simp [hne, hpk]
  rw [List.filter_congr hcong]
  rw [buildBuckets_filter]
  have hne : (contribs kvs k).isEmpty = false := by
    cases hcase : contribs kvs k with
    | nil => exact absurd hcase h
    | cons a as => rfl
  rw [hne]
  simp

theorem isEmpty_false_of_ne {α : Type} {l : List α} (h : l ≠ []) :
    l.isEmpty = false := by
  cases hc : l with
  | nil => exact absurd hc h
  | cons a as => rfl

theorem clean_groups_dict (kvs : PyDict) :
    clean_groups (PyVal.dict kvs) = some (processBuckets (buildBuckets kvs)) := by
  cases kvs with
  | nil => rfl
  | cons a as => rfl

theorem buildBuckets_pair {c1 c2 : Str} (es1 es2 : List PyVal)
    (h : norm_community c1 = norm_community c2) :
    buildBuckets [(c1, .list es1), (c2, .list es2)]
      = buildBuckets [(c1, .list (es1 ++ es2))] := by
  unfold buildBuckets
  simp only [List.foldl_cons, List.foldl_nil, bucketStep_list]
  rw [← h]
  unfold extendAt
  simp [List.filterMap_append]

theorem contribs_eq_nil {kvs : PyDict} {k : Str}
    (h : ∀ p ∈ kvs, ∀ xs, p.2 = PyVal.list xs → norm_community p.1 ≠ k) :
    contribs kvs k = [] := by
  unfold contribs
  rw [List.filterMap_eq_nil_iff]
  intro a ha
  rcases a with ⟨c, v⟩
  cases v with
  | list xs =>
    show (if norm_community c = k then some (xs.filterMap asDict)
      else Option.none) = Option.none
    rw [if_neg (h (c, PyVal.list xs) ha xs rfl)]
  | str s => rfl
  | int n => rfl
  | bool b => rfl
  | pynone => rfl
  | dict kvs' => rfl

theorem contribs_single :
    ∀ (kvs : PyDict) (c : Str) (es : List PyVal),
      (c, PyVal.list es) ∈ kvs →
      (kvs.map Prod.fst).Nodup →
      (∀ p ∈ kvs, p.1 ≠ c → norm_community p.1 ≠ norm_community c) →
      contribs kvs (norm_community c) = [es.filterMap asDict]
  | [], c, es, hmem, _, _ => by simp at hmem
  | (c0, v0) :: kvs, c, es, hmem, hnd, hothers => by
    rw [List.map_cons, List.nodup_cons] at hnd
    rcases List.mem_cons.1 hmem with heq | hmem
    · injection heq with h1 h2
      subst h1
      subst h2
      rw [contribs_cons_list_pos rfl]
      have hrest : contribs kvs (norm_community c) = [] := by
        apply contribs_eq_nil
        intro p hp xs hpx
        by_cases hpc : p.1 = c
        · exfalso
          have hin : p.1 ∈ List.map Prod.fst kvs :=
            List.mem_map_of_mem Prod.fst hp
          rw [hpc] at hin
          exact hnd.1 hin
        · exact hothers p (List.mem_cons_of_mem _ hp) hpc
      rw [hrest]
    · have hc0 : c0 ≠ c := by
        intro hc
        have hin : c ∈ List.map Prod.fst kvs :=
          List.mem_map_of_mem Prod.fst hmem
        rw [← hc] at hin
        exact hnd.1 hin
      have hne : norm_community c0 ≠ norm_community c :=
        hothers (c0, v0) (List.mem_cons_self _ _) hc0
      have hstep : contribs ((c0, v0) :: kvs) (norm_community c)
          = contribs kvs (norm_community c) := by
        cases v0 with
        | list xs => exact contribs_cons_list_neg hne
        | str s => exact contribs_cons_other (by intro xs h'; cases h')
        | int n => exact contribs_cons_other (by intro xs h'; cases h')
        | bool b => exact contribs_cons_other (by intro xs h'; cases h')
        | pynone => exact contribs_cons_other (by intro xs h'; cases h')
        | dict kvs' => exact contribs_cons_other (by intro xs h'; cases h')
      rw [hstep]
      exact contribs_single kvs c es hmem hnd.2
        (fun p hp => hothers p (List.mem_cons_of_mem _ hp))

/-!  ## Claim theorems  -/

/-- C1: on the input document
`{"groups": {"Oak Hills": [{address:"100 N Main St", gate:"1234", type:"apt"},
{address:"100 North Main Street", gate:"1234,5678", type:"Apartment"}]}}`
the transform produces exactly one community `"Oak Hills"` with exactly one
entry, whose gate is `"1234 5678"`, whose type is `"Apartments"`, and whose
address is one of the two contributing raw address strings. -/
theorem claim_C1 :
    ∃ entry : CleanEntry,
      clean_groups (.dict [("Oak Hills".data, .list
        [ .dict [("address".data, .str "100 N Main St".data),
                 ("gate".data, .str "1234".data),
                 ("type".data, .str "apt".data)],
          .dict [("address".data, .str "100 North Main Street".data),
                 ("gate".data, .str "1234,5678".data),
                 ("type".data, .str "Apartment".data)] ])])
        = some [("Oak Hills".data, [entry])] ∧
      entry.gate = "1234 5678".data ∧
      entry.type = "Apartments".data ∧
      (entry.address = "100 N Main St".data ∨
       entry.address = "100 North Main Street".data) :=
  ⟨⟨"100 N Main St".data, "1234 5678".data, "Apartments".data⟩,
   by decide, rfl, rfl, Or.inl rfl⟩

/-- C2 counterexample: a truthy non-mapping `groups` value (a non-empty list,
or a non-empty string) makes `(groups or {}).items()` raise `AttributeError`
(modelled as `Option.none`), contradicting the claim that every non-mapping
is treated as an empty mapping without error. -/
theorem claim_C2_counterexample :
    clean_groups (PyVal.list [PyVal.int 1]) = Option.none ∧
    clean_groups (PyVal.str "oops".data) = Option.none :=
  ⟨by decide, by decide⟩

/-- C2 amended: a missing `groups` key or a falsy `groups` value (such as
`None`, `false`, `0`, `""`, `[]`, `{}`) is treated as an empty mapping,
producing zero communities without error; a truthy non-mapping value raises
`AttributeError`. -/
theorem claim_C2 (g : PyVal) (payload : PyDict) :
    (truthy g = false → clean_groups g = some []) ∧
    (truthy g = true → asDict g = Option.none →
      clean_groups g = Option.none) ∧
    (payload.lookup "groups".data = Option.none →
      clean_payload payload = some []) := by
  refine ⟨?_, ?_, ?_⟩
  · intro h
    unfold clean_groups
    rw [if_neg (by simp [h])]
    rfl
  · intro ht hd
    unfold clean_groups
    rw [if_pos ht]
    cases g with
    | dict kvs => exact absurd hd (by simp [asDict])
    | str s => rfl
    | int n => rfl
    | bool b => rfl
    | pynone => rfl
    | list xs => rfl
  · intro h
    unfold clean_payload
    rw [h]
    rfl

theorem claim_C2_witness :
    clean_groups (PyVal.list []) = some [] ∧
    clean_groups (PyVal.str "x".data) = Option.none :=
  ⟨(claim_C2 (PyVal.list []) []).1 rfl,
   (claim_C2 (PyVal.str "x".data) []).2.1 (by decide) rfl⟩

/-- C3 counterexample: an entry whose `gate` field holds the integer `1234`
is coerced with `str(...)`, so the gate token `"1234"` appears in the output
— the claim that a non-string gate contributes no gate tokens is false. -/
theorem claim_C3_counterexample :
    clean_groups (.dict [("C".data,
        .list [.dict [("gate".data, PyVal.int 1234)]])])
      = some [("C".data, [⟨[], "1234".data, "Unknown".data⟩])] ∧
    ("1234".data : Str) ≠ [] :=
  ⟨by decide, by decide⟩

/-- C3 amended: a missing `address`/`gate`/`type` field defaults to the empty
string (classifying as `"Unknown"` for the type); a present field is coerced
with Python `str(...)`, so a non-string value contributes its string
rendering — in particular an integer gate `1234` contributes the gate string
`"1234"` — and processing never raises. -/
theorem claim_C3 (e : PyDict) :
    (e.lookup "address".data = Option.none → entry_address e = []) ∧
    (e.lookup "gate".data = Option.none → entry_gate e = []) ∧
    (e.lookup "type".data = Option.none → entry_type e = "Unknown".data) ∧
    (∀ v, e.lookup "gate".data = some v →
      entry_gate e = clean_spaces (pyStr v)) ∧
    (e.lookup "gate".data = some (PyVal.int 1234) →
      entry_gate e = "1234".data) := by
  refine ⟨?_, ?_, ?_, ?_, ?_⟩
  · intro h
    unfold entry_address pyGet
    rw [h]
    rfl
  · intro h
    unfold entry_gate pyGet
    rw [h]
    rfl
  · intro h
    unfold entry_type pyGet
    rw [h]
    decide
  · intro v h
    unfold entry_gate pyGet
    rw [h]
  · intro h
    unfold entry_gate pyGet
    rw [h]
    decide

theorem claim_C3_witness :
    entry_address [("gate".data, PyVal.int 1234)] = [] ∧
    entry_gate [("gate".data, PyVal.int 1234)] = "1234".data :=
  ⟨(claim_C3 [("gate".data, PyVal.int 1234)]).1 rfl,
   (claim_C3 [("gate".data, PyVal.int 1234)]).2.2.2.2 rfl⟩

/-- C4 counterexample: the classifier checks the `student` keyword after the
business rule, so `"student business"` is classified `"Businesses"`, not
`"Residential"` as the claim's rule order would require. -/
theorem claim_C4_counterexample :
    norm_type "student business".data = "Businesses".data ∧
    hasSub "student".data (type_key "student business".data) = true ∧
    "Businesses".data ≠ "Residential".data :=
  ⟨by decide, by decide, by decide⟩

/-- C4 amended: the classifier normalizes to a lowercase letters-only
space-collapsed key, returns `"Unknown"` on empty, and applies the keyword
rules in the order apartment → residential → business → student (first match
wins), falling back to the title-cased echo; an input containing both
`student` and `business` is therefore classified `"Businesses"`. -/
theorem claim_C4 (t : Str) :
    (type_key t = [] → norm_type t = "Unknown".data) ∧
    (type_key t ≠ [] → is_apt (type_key t) = true →
      norm_type t = "Apartments".data) ∧
    (type_key t ≠ [] → is_apt (type_key t) = false →
      is_res (type_key t) = true → norm_type t = "Residential".data) ∧
    (type_key t ≠ [] → is_apt (type_key t) = false →
      is_res (type_key t) = false → is_bus (type_key t) = true →
      norm_type t = "Businesses".data) ∧
    (type_key t ≠ [] → is_apt (type_key t) = false →
      is_res (type_key t) = false → is_bus (type_key t) = false →
      hasSub "student".data (type_key t) = true →
      norm_type t = "Residential".data) ∧
    (type_key t ≠ [] → is_apt (type_key t) = false →
      is_res (type_key t) = false → is_bus (type_key t) = false →
      hasSub "student".data (type_key t) = false →
      norm_type t = title_case_smart (type_key t)) := by
  refine ⟨?_, ?_, ?_, ?_, ?_, ?_⟩
  · intro h
    simp [norm_type, h]
  · intro h1 h2
    simp [norm_type, isEmpty_false_of_ne h1, h2]
  · intro h1 h2 h3
    simp [norm_type, isEmpty_false_of_ne h1, h2, h3]
  · intro h1 h2 h3 h4
    simp [norm_type, isEmpty_false_of_ne h1, h2, h3, h4]
  · intro h1 h2 h3 h4 h5
    simp [norm_type, isEmpty_false_of_ne h1, h2, h3, h4, h5]
  · intro h1 h2 h3 h4 h5
    simp [norm_type, isEmpty_false_of_ne h1, h2, h3, h4, h5]

theorem claim_C4_witness :
    norm_type "Gated Condo Complex".data
      = title_case_smart (type_key "Gated Condo Complex".data) ∧
    title_case_smart (type_key "Gated Condo Complex".data)
      = "Gated Condo Complex".data :=
  ⟨(claim_C4 "Gated Condo Complex".data).2.2.2.2.2
    (by decide) (by decide) (by decide) (by decide) (by decide),
   by decide⟩

/-- C5: in each address group the output address is the most frequent
non-empty raw address string, ties broken in favour of the value first
encountered in contribution order, falling back to the title-cased
normalized address key when every contribution is empty; the output type is
likewise the majority-vote classified type with `"Unknown"` fallback. -/
theorem claim_C5 (addr_norm : Str) (agg : AddrAgg) :
    ((∀ a ∈ agg.1, a = []) →
      (aggEntry addr_norm agg).address = title_case_smart addr_norm) ∧
    ((∃ a ∈ agg.1, a ≠ []) →
      majority_pick ((aggEntry addr_norm agg).address) agg.1) ∧
    ((∀ t ∈ agg.2.1, t = []) →
      (aggEntry addr_norm agg).type = "Unknown".data) ∧
    ((∃ t ∈ agg.2.1, t ≠ []) →
      majority_pick ((aggEntry addr_norm agg).type) agg.2.1) := by
  refine ⟨?_, ?_, ?_, ?_⟩
  · intro h
    have hmc := (most_common_spec agg.1).1 h
    simp [aggEntry, hmc]
  · intro h
    have hmp := (most_common_spec agg.1).2 h
    have haddr : (aggEntry addr_norm agg).address = most_common agg.1 := by
      simp [aggEntry, isEmpty_false_of_ne hmp.1]
    rw [haddr]
    exact hmp
  · intro h
    have hmc := (most_common_spec agg.2.1).1 h
    simp [aggEntry, hmc]
  · intro h
    have hmp := (most_common_spec agg.2.1).2 h
    have htyp : (aggEntry addr_norm agg).type = most_common agg.2.1 := by
      simp [aggEntry, isEmpty_false_of_ne hmp.1]
    rw [htyp]
    exact hmp

theorem claim_C5_witness :
    majority_pick
      ((aggEntry "123 main street".data
        (["123 Main St".data, "123 Main St".data, "123 Main Street".data],
         ["Residential".data], [[]])).address)
      ["123 Main St".data, "123 Main St".data, "123 Main Street".data] ∧
    (aggEntry "123 main street".data
        (["123 Main St".data, "123 Main St".data, "123 Main Street".data],
         ["Residential".data], [[]])).address = "123 Main St".data :=
  ⟨(claim_C5 "123 main street".data
      (["123 Main St".data, "123 Main St".data, "123 Main Street".data],
       ["Residential".data], [[]])).2.1 (by decide),
   by decide⟩

/-- C6: the gate-token extractor returns exactly the maximal decimal-digit
runs of the raw gate string in left-to-right order; in a merged address
group, first-occurrence deduplication is applied to the concatenation of the
per-gate token lists in contribution order and the result is joined with
single spaces; extracting then deduplicating
`"Gate: 0456, code 0456 / 0789"` yields `["0456", "0789"]`. -/
theorem claim_C6 (g : Str) (addr_norm : Str) (agg : AddrAgg) :
    RunsSpecP isDigitChar g (extract_gate_tokens g) ∧
    FirstDedup ((agg.2.2.map extract_gate_tokens).flatten)
      (uniq_preserve ((agg.2.2.map extract_gate_tokens).flatten)) ∧
    (aggEntry addr_norm agg).gate
      = joinSep ' '
          (uniq_preserve ((agg.2.2.map extract_gate_tokens).flatten)) ∧
    uniq_preserve (extract_gate_tokens "Gate: 0456, code 0456 / 0789".data)
      = ["0456".data, "0789".data] :=
  ⟨maxRuns_runsSpec isDigitChar g,
   uniq_preserve_firstDedup _,
   rfl,
   by decide⟩

theorem claim_C6_witness :
    RunsSpecP isDigitChar "Gate: 0456, code 0456 / 0789".data
      (extract_gate_tokens "Gate: 0456, code 0456 / 0789".data) :=
  (claim_C6 "Gate: 0456, code 0456 / 0789".data [] ([], [], [])).1

/-- C7: in every input document all list-valued communities whose names
normalize to the same key are merged into one bucket (their dict-shaped
entries concatenated in document order), hence into a single output
community; a document with two same-key spellings is cleaned identically to
one where the later spelling's entries are appended to the earlier one. -/
theorem claim_C7 (kvs : PyDict) (k : Str) (c1 c2 : Str)
    (es1 es2 : List PyVal) (h : norm_community c1 = norm_community c2) :
    ((buildBuckets kvs).filter (fun p => p.1 == k)
      = if (contribs kvs k).isEmpty then []
        else [(k, (contribs kvs k).flatten)]) ∧
    clean_groups (.dict [(c1, .list es1), (c2, .list es2)])
      = clean_groups (.dict [(c1, .list (es1 ++ es2))]) ∧
    (contribs kvs k ≠ [] →
      (processBuckets (buildBuckets kvs)).filter
          (fun p => p.1 == title_case_smart k)
        = [(title_case_smart k,
            (buildByAddr (contribs kvs k).flatten).map
              (fun q => aggEntry q.1 q.2))]) := by
  refine ⟨buildBuckets_filter kvs k, ?_,
    fun hc => clean_groups_filter kvs k hc⟩
  rw [clean_groups_dict, clean_groups_dict, buildBuckets_pair es1 es2 h]

theorem claim_C7_witness :
    clean_groups (.dict
      [ ("Oak Hills".data, .list [PyVal.dict [("gate".data, .str "1".data)]]),
        ("oak   hills".data,
          .list [PyVal.dict [("gate".data, .str "2".data)]]) ])
      = clean_groups (.dict
        [ ("Oak Hills".data,
            .list [PyVal.dict [("gate".data, .str "1".data)],
                   PyVal.dict [("gate".data, .str "2".data)]]) ]) ∧
    (processBuckets (buildBuckets
        [("Oak Hills".data, PyVal.list [PyVal.dict []])])).filter
        (fun p => p.1 == title_case_smart "oak hills".data)
      = [(title_case_smart "oak hills".data,
          (buildByAddr (contribs
              [("Oak Hills".data, PyVal.list [PyVal.dict []])]
              "oak hills".data).flatten).map
            (fun q => aggEntry q.1 q.2))] := by
  constructor
  · exact (claim_C7 [] [] "Oak Hills".data "oak   hills".data
      [PyVal.dict [("gate".data, .str "1".data)]]
      [PyVal.dict [("gate".data, .str "2".data)]] (by decide)).2.1
  · have hcontr : contribs [("Oak Hills".data, PyVal.list [PyVal.dict []])]
        "oak hills".data = [[([] : PyDict)]] := rfl
    refine (claim_C7 [("Oak Hills".data, PyVal.list [PyVal.dict []])]
      "oak hills".data [] [] [] [] rfl).2.2 ?_
    intro hc
    rw [hcontr] at hc
    cases hc

/-- C8: every input this pipeline feeds to the smart title-caser — a
normalized community key, a normalized address key, and the letters-only
type key — contains no uppercase letter, and on uppercase-free input
`title_case_smart` agrees with the variant whose acronym-preservation branch
is removed: that branch is dead in the exercised code path. -/
theorem claim_C8 (s name addr typ : Str) :
    (NoUpper s → title_case_smart s = title_case_noacr s) ∧
    NoUpper (norm_community name) ∧
    NoUpper (norm_address addr) ∧
    NoUpper (type_key typ) :=
  ⟨fun h => title_eq_noacr h, norm_community_noUpper name,
   norm_address_noUpper addr, type_key_noUpper typ⟩

theorem claim_C8_witness :
    title_case_smart "oak hills".data = title_case_noacr "oak hills".data :=
  (claim_C8 "oak hills".data [] [] []).1 (by unfold NoUpper; decide)

/-- C9: community-key normalization is idempotent — normalizing an already
normalized community name changes nothing. -/
theorem claim_C9 (x : Str) :
    norm_community (norm_community x) = norm_community x := by
  obtain ⟨ts, hts, heq⟩ := norm_community_canon x
  rw [heq]
  exact norm_community_of_canon hts

theorem claim_C9_witness :
    norm_community (norm_community "Café   VERDE!".data)
      = norm_community "Café   VERDE!".data :=
  claim_C9 "Café   VERDE!".data

/-- C10: a community whose value is a list with no dict-shaped entries (for
example the empty list), and whose normalized key no other community name
shares, still appears in the output: its title-cased normalized key is
mapped to an empty entry list rather than being omitted. -/
theorem claim_C10 (kvs : PyDict) (c : Str) (es : List PyVal)
    (hmem : (c, PyVal.list es) ∈ kvs)
    (hnd : (kvs.map Prod.fst).Nodup)
    (hothers : ∀ p ∈ kvs, p.1 ≠ c →
      norm_community p.1 ≠ norm_community c)
    (hnodict : es.filterMap asDict = []) :
    clean_groups (PyVal.dict kvs)
      = some (processBuckets (buildBuckets kvs)) ∧
    (processBuckets (buildBuckets kvs)).filter
        (fun p => p.1 == title_case_smart (norm_community c))
      = [(title_case_smart (norm_community c), [])] := by
  refine ⟨clean_groups_dict kvs, ?_⟩
  have hcontrib : contribs kvs (norm_community c) = [es.filterMap asDict] :=
    contribs_single kvs c es hmem hnd hothers
  rw [hnodict] at hcontrib
  have hfil := clean_groups_filter kvs (norm_community c)
    (by rw [hcontrib]; simp)
  rw [hcontrib] at hfil
  simpa [buildByAddr] using hfil

theorem claim_C10_witness :
    clean_groups (PyVal.dict
      [ ("Empty Lot".data, PyVal.list [PyVal.int 5]),
        ("Other".data, PyVal.list [PyVal.dict []]) ])
      = some (processBuckets (buildBuckets
        [ ("Empty Lot".data, PyVal.list [PyVal.int 5]),
          ("Other".data, PyVal.list [PyVal.dict []]) ])) ∧
    (processBuckets (buildBuckets
        [ ("Empty Lot".data, PyVal.list [PyVal.int 5]),
          ("Other".data, PyVal.list [PyVal.dict []]) ])).filter
        (fun p => p.1 == title_case_smart (norm_community "Empty Lot".data))
      = [(title_case_smart (norm_community "Empty Lot".data), [])] := by
  refine claim_C10 _ "Empty Lot".data [PyVal.int 5]
    (List.mem_cons_self _ _) (by decide) ?_ rfl
  intro p hp hne
  rcases List.mem_cons.1 hp with heq | hp2
  · exfalso
    apply hne
    rw [heq]
  · have heq2 : p = ("Other".data, PyVal.list [PyVal.dict []]) := by
      simpa using hp2
    rw [heq2]
    decide
